import Mathlib

/-!
# Verification of the scribble instrumentation pipeline

Shallow embedding, in Lean 4, of the parts of the ConsenSys/scribble code base
(version 0.3.5) that its specification makes claims about:

* `util` source-map helpers (`SrcTriple`, `contains`);
* `bin/scribble` (`pickVersion`, `computeContractsNeedingInstr`, `instrumentFiles`
  worklist construction, `fixNameConflicts`, `fixRenamingErrors`, `topoSort`);
* `spec-lang/tc` (`TypeEnv.getUserFunction` / `defineUserFunction`);
* `util/instrumentation_metadata` (`generatePropertyMap`,
  `generateInstrumentationMetadata` source lists).

JavaScript `Map`s and `Set`s are modelled by association lists with
first-match lookup and by duplicate-free insertion, JS `Array` stacks/queues
by Lean lists, and functions that can hit a failing `assert` (which aborts the
process) return `Option`/`Except`.
-/

namespace Scribble

/-! ## Generic executable helpers modelling JS `Map` / `Set` -/

/-- Association-list lookup, modelling `Map.get` (first matching key wins; the
builders below never create duplicate keys). -/
def mapGet {α β : Type} [DecidableEq α] (m : List (α × β)) (k : α) : Option β :=
  (m.find? (fun p => decide (p.1 = k))).map Prod.snd

/-- Association-list update, modelling `Map.set`: overwrite an existing key,
otherwise append a new entry. -/
def mapSet {α β : Type} [DecidableEq α] : List (α × β) → α → β → List (α × β)
  | [], k, v => [(k, v)]
  | (k0, v0) :: rest, k, v =>
    if k0 = k then (k, v) :: rest else (k0, v0) :: mapSet rest k v

/-- Worker for `dedup`, carrying the set of elements already seen. -/
def dedupAux {α : Type} [DecidableEq α] : List α → List α → List α
  | [], _ => []
  | x :: xs, seen => if x ∈ seen then dedupAux xs seen else x :: dedupAux xs (x :: seen)

/-- Deduplication keeping first occurrences: models `new Set([...xs])` iteration
order as well as the `dedup` helper of `util`. -/
def dedup {α : Type} [DecidableEq α] (xs : List α) : List α := dedupAux xs []

theorem mem_dedupAux {α : Type} [DecidableEq α] (x : α) :
    ∀ (l seen : List α), x ∈ dedupAux l seen ↔ x ∈ l ∧ x ∉ seen := by
  intro l
  induction l with
  | nil => intro seen; simp [dedupAux]
  | cons a as ih =>
    intro seen
    by_cases ha : a ∈ seen
    · simp only [dedupAux, if_pos ha]
      rw [ih, List.mem_cons]
      constructor
      · rintro ⟨hx, hns⟩; exact ⟨Or.inr hx, hns⟩
      · rintro ⟨hx | hx, hns⟩
        · exact absurd (hx ▸ ha) hns
        · exact ⟨hx, hns⟩
    · simp only [dedupAux, if_neg ha, List.mem_cons]
      rw [ih]
      constructor
      · rintro (rfl | ⟨hx, hns⟩)
        · exact ⟨Or.inl rfl, ha⟩
        · refine ⟨Or.inr hx, ?_⟩
          intro hc
          exact hns (List.mem_cons_of_mem a hc)
      · rintro ⟨rfl | hx, hns⟩
        · exact Or.inl rfl
        · by_cases hxa : x = a
          · exact Or.inl hxa
          · exact Or.inr ⟨hx, by simp [List.mem_cons, hxa, hns]⟩

theorem mem_dedup {α : Type} [DecidableEq α] (x : α) (l : List α) :
    x ∈ dedup l ↔ x ∈ l := by
  rw [dedup, mem_dedupAux]; simp

theorem dedupAux_eq_nil {α : Type} [DecidableEq α] :
    ∀ (l seen : List α), (∀ x ∈ l, x ∈ seen) → dedupAux l seen = [] := by
  intro l
  induction l with
  | nil => intro seen _; rfl
  | cons a as ih =>
    intro seen h
    have ha : a ∈ seen := h a (List.mem_cons_self a as)
    simp only [dedupAux, if_pos ha]
    exact ih seen (fun x hx => h x (List.mem_cons_of_mem a hx))

theorem nodup_dedupAux {α : Type} [DecidableEq α] :
    ∀ (l seen : List α), (dedupAux l seen).Nodup := by
  intro l
  induction l with
  | nil => intro seen; simp [dedupAux]
  | cons a as ih =>
    intro seen
    by_cases ha : a ∈ seen
    · simp only [dedupAux, if_pos ha]; exact ih seen
    · simp only [dedupAux, if_neg ha]
      refine List.nodup_cons.mpr ⟨?_, ih (a :: seen)⟩
      intro hc
      exact ((mem_dedupAux a as (a :: seen)).mp hc).2 (List.mem_cons_self a seen)

theorem nodup_dedup {α : Type} [DecidableEq α] (l : List α) : (dedup l).Nodup :=
  nodup_dedupAux l []

theorem mapGet_mapSet_self {α β : Type} [DecidableEq α] :
    ∀ (m : List (α × β)) (k : α) (v : β), mapGet (mapSet m k v) k = some v := by
  intro m
  induction m with
  | nil => intro k v; simp [mapGet, mapSet, List.find?]
  | cons p rest ih =>
    intro k v
    obtain ⟨k0, v0⟩ := p
    by_cases hk : k0 = k
    · simp [mapSet, if_pos hk, mapGet, List.find?]
    · simp only [mapSet, if_neg hk]
      simp only [mapGet, List.find?] at ih ⊢
      have : (decide ((k0, v0).1 = k)) = false := by simp [hk]
      rw [this]
      exact ih k v

theorem mapGet_mapSet_other {α β : Type} [DecidableEq α] :
    ∀ (m : List (α × β)) (k k2 : α) (v : β), k ≠ k2 →
      mapGet (mapSet m k v) k2 = mapGet m k2 := by
  intro m
  induction m with
  | nil =>
    intro k k2 v hne
    simp [mapGet, mapSet, List.find?, hne]
  | cons p rest ih =>
    intro k k2 v hne
    obtain ⟨k0, v0⟩ := p
    by_cases hk : k0 = k
    · subst hk
      simp [mapSet, mapGet, List.find?, hne, Ne.symm hne]
    · simp only [mapSet, if_neg hk]
      simp only [mapGet, List.find?] at ih ⊢
      by_cases h2 : k0 = k2
      · simp [h2]
      · have h2d : (decide ((k0, v0).1 = k2)) = false := by simp [h2]
        rw [h2d]
        exact ih k k2 v hne

/-- First-match association lookup of an entry that is a member of a list whose
keys are duplicate-free. -/
theorem mapGet_of_mem_of_nodupKeys {α β : Type} [DecidableEq α] :
    ∀ (m : List (α × β)) (k : α) (v : β), (m.map Prod.fst).Nodup → (k, v) ∈ m →
      mapGet m k = some v := by
  intro m
  induction m with
  | nil => intro k v _ h; simp at h
  | cons p rest ih =>
    intro k v hnd hm
    obtain ⟨k0, v0⟩ := p
    simp only [List.map_cons, List.nodup_cons] at hnd
    rcases List.mem_cons.mp hm with h | h
    · injection h with h1 h2
      subst h1; subst h2
      simp [mapGet, List.find?]
    · have hk : k0 ≠ k := by
        intro hc
        subst hc
        exact hnd.1 (List.mem_map.mpr ⟨(k0, v), h, rfl⟩)
      simp only [mapGet, List.find?]
      have : (decide ((k0, v0).1 = k)) = false := by simp [hk]
      rw [this]
      exact ih k v hnd.2 h

/-! ## Claim C10 — `util`: source triples and the `contains` check -/

/-- `util` `SrcTriple`: (starting offset, length, file index) of a source
fragment, the components being JS numbers (integers here). -/
structure SrcTriple where
  offset : Int
  len : Int
  fileIdx : Int
deriving DecidableEq

/-- `util` `contains`: source range `a` contains source range `b`
(`a[2] == b[2] && a[0] <= b[0] && a[0] + a[1] >= b[0] + b[1]`). -/
def contains (a b : SrcTriple) : Bool :=
  decide (a.fileIdx = b.fileIdx) && decide (a.offset ≤ b.offset) &&
    decide (a.offset + a.len ≥ b.offset + b.len)

/-- Claim C10: `contains` is a partial order on source triples — reflexive,
transitive and antisymmetric — and `contains a b` forces `a` and `b` to carry
the same file index. -/
theorem contains_partialOrder :
    (∀ a : SrcTriple, contains a a = true) ∧
    (∀ a b c : SrcTriple, contains a b = true → contains b c = true →
      contains a c = true) ∧
    (∀ a b : SrcTriple, contains a b = true → contains b a = true → a = b) ∧
    (∀ a b : SrcTriple, contains a b = true → a.fileIdx = b.fileIdx) := by
  refine ⟨?_, ?_, ?_, ?_⟩
  · intro a; simp [contains]
  · intro a b c hab hbc
    simp only [contains, Bool.and_eq_true, decide_eq_true_eq] at hab hbc ⊢
    refine ⟨⟨hab.1.1.trans hbc.1.1, le_trans hab.1.2 hbc.1.2⟩, le_trans hbc.2 hab.2⟩
  · intro a b hab hba
    obtain ⟨ao, al, af⟩ := a
    obtain ⟨bo, bl, bf⟩ := b
    simp only [contains, Bool.and_eq_true, decide_eq_true_eq] at hab hba
    simp only [SrcTriple.mk.injEq]
    refine ⟨?_, ?_, hab.1.1⟩ <;> omega
  · intro a b hab
    simp only [contains, Bool.and_eq_true, decide_eq_true_eq] at hab
    exact hab.1.1

/-- Concrete instance of C10's transitivity: `0..5` contains `1..4` contains
`2..3`, hence `0..5` contains `2..3`. -/
theorem contains_partialOrder_witness :
    contains ⟨0, 5, 0⟩ ⟨2, 1, 0⟩ = true :=
  contains_partialOrder.2.1 ⟨0, 5, 0⟩ ⟨1, 3, 0⟩ ⟨2, 1, 0⟩ (by decide) (by decide)

/-! ## Claim C4 — `bin/scribble`: `pickVersion` -/

/-- The message printed by `pickVersion` before exiting with code 1 (JS array
interpolation joins with commas). -/
def pickVersionMessage (versions : List String) : String :=
  "Multiple compiler versions detected: " ++ String.intercalate "," versions ++
    ". Please specify an exact version to use with '--compiler-version'."

/-- `bin/scribble` `pickVersion`: deduplicate the values of the
target-to-version map; if exactly one version remains return it, otherwise
call `error` (print the message and `process.exit(1)`, modelled as
`Except.error`). -/
def pickVersion (versionUsedMap : List (String × String)) : Except String String :=
  let versions := dedup (versionUsedMap.map Prod.snd)
  match versions with
  | [v] => Except.ok v
  | vs => Except.error (pickVersionMessage vs)

theorem dedup_of_all_eq {α : Type} [DecidableEq α] (l : List α) (v : α)
    (hne : l ≠ []) (hall : ∀ x ∈ l, x = v) : dedup l = [v] := by
  cases l with
  | nil => exact absurd rfl hne
  | cons a as =>
    have ha : a = v := hall a (List.mem_cons_self a as)
    subst ha
    show dedupAux (a :: as) [] = [a]
    simp only [dedupAux, List.not_mem_nil, if_neg (fun h => h)]
    rw [dedupAux_eq_nil as [a] ?_]
    intro x hx
    have := hall x (List.mem_cons_of_mem a hx)
    simp [this]

/-- Claim C4: when every target resolved to the same compiler version,
`pickVersion` returns that version; as soon as two distinct versions were
detected it errors out (exit 1) with a message listing exactly the detected
versions, and in particular never returns a value. -/
theorem pickVersion_correct (m : List (String × String)) :
    (∀ v : String, m ≠ [] → (∀ p ∈ m, p.2 = v) → pickVersion m = Except.ok v) ∧
    (∀ v1 v2 : String, (∃ p ∈ m, p.2 = v1) → (∃ p ∈ m, p.2 = v2) → v1 ≠ v2 →
      ∃ vs, pickVersion m = Except.error (pickVersionMessage vs) ∧
        v1 ∈ vs ∧ v2 ∈ vs ∧ ∀ v ∈ vs, ∃ p ∈ m, p.2 = v) := by
  constructor
  · intro v hne hall
    have hmap : m.map Prod.snd ≠ [] := by
      intro hc
      exact hne (List.map_eq_nil_iff.mp hc)
    have : dedup (m.map Prod.snd) = [v] := by
      refine dedup_of_all_eq _ v hmap ?_
      intro x hx
      obtain ⟨p, hp, rfl⟩ := List.mem_map.mp hx
      exact hall p hp
    simp [pickVersion, this]
  · intro v1 v2 h1 h2 hne
    have hm1 : v1 ∈ dedup (m.map Prod.snd) := by
      rw [mem_dedup]
      obtain ⟨p, hp, hv⟩ := h1
      exact List.mem_map.mpr ⟨p, hp, hv⟩
    have hm2 : v2 ∈ dedup (m.map Prod.snd) := by
      rw [mem_dedup]
      obtain ⟨p, hp, hv⟩ := h2
      exact List.mem_map.mpr ⟨p, hp, hv⟩
    refine ⟨dedup (m.map Prod.snd), ?_, hm1, hm2, ?_⟩
    · cases hd : dedup (m.map Prod.snd) with
      | nil => rw [hd] at hm1; simp at hm1
      | cons a as =>
        cases as with
        | nil =>
          rw [hd] at hm1 hm2
          simp only [List.mem_singleton] at hm1 hm2
          exact absurd (hm1.trans hm2.symm) hne
        | cons b bs => simp [pickVersion, hd]
    · intro v hv
      rw [mem_dedup] at hv
      obtain ⟨p, hp, hv⟩ := List.mem_map.mp hv
      exact ⟨p, hp, hv⟩

/-- Concrete instance of C4: two targets with the same detected version. -/
theorem pickVersion_correct_witness :
    pickVersion [("a.sol", "0.6.12"), ("b.sol", "0.6.12")] = Except.ok "0.6.12" :=
  (pickVersion_correct [("a.sol", "0.6.12"), ("b.sol", "0.6.12")]).1 "0.6.12"
    (by decide) (by decide)

/-! ## Claim C8 — `spec-lang/tc`: `TypeEnv.getUserFunction` -/

/-- `spec-lang/ast` `SUserFunctionDefinition`, reduced to the data
`getUserFunction` inspects (its name) plus a tag telling definitions apart;
the rest of the definition (parameters, body) is opaque to the lookup. -/
structure SUserFunDef where
  name : String
  tag : Nat
deriving DecidableEq

/-- `TypeEnv.userFunctions`: `Map` from contract (as an id) to a `Map` from
name to user-function definition. -/
def UserFunMap : Type := List (Nat × List (String × SUserFunDef))

/-- `TypeEnv.getUserFunction`: walk `scope.vLinearizedBaseContracts` (passed
here as the list of contract ids, most-derived first), skip contracts with no
registered map, and return the first definition found under `name`. -/
def getUserFunction (env : UserFunMap) (linearizedBaseContracts : List Nat)
    (name : String) : Option SUserFunDef :=
  match linearizedBaseContracts with
  | [] => none
  | base :: rest =>
    match mapGet env base with
    | none => getUserFunction env rest name
    | some funM =>
      match mapGet funM name with
      | some res => some res
      | none => getUserFunction env rest name

/-- `TypeEnv.defineUserFunction`: get-or-create the per-contract map, register
the definition under its name, and store the map back. -/
def defineUserFunction (env : UserFunMap) (scope : Nat) (f : SUserFunDef) :
    UserFunMap :=
  let funM := (mapGet env scope).getD []
  mapSet env scope (mapSet funM f.name f)

/-- The definition registered for `name` directly on contract `c` (the
composition of the two map lookups of `TypeEnv.userFunctions`). -/
def registeredAt (env : UserFunMap) (c : Nat) (name : String) :
    Option SUserFunDef :=
  (mapGet env c).bind (fun funM => mapGet funM name)

theorem getUserFunction_cons (env : UserFunMap) (base : Nat) (rest : List Nat)
    (name : String) :
    getUserFunction env (base :: rest) name =
      match registeredAt env base name with
      | some d => some d
      | none => getUserFunction env rest name := by
  simp only [getUserFunction, registeredAt]
  cases mapGet env base with
  | none => rfl
  | some funM =>
    cases mapGet funM name with
    | none => rfl
    | some res => rfl

theorem getUserFunction_some_iff (env : UserFunMap) (name : String) :
    ∀ (lin : List Nat) (d : SUserFunDef),
      getUserFunction env lin name = some d ↔
        ∃ (i : Nat) (c : Nat), lin[i]? = some c ∧ registeredAt env c name = some d ∧
          ∀ (j : Nat) (c2 : Nat), j < i → lin[j]? = some c2 →
            registeredAt env c2 name = none := by
  intro lin
  induction lin with
  | nil =>
    intro d
    simp [getUserFunction]
  | cons base rest ih =>
    intro d
    rw [getUserFunction_cons]
    cases hreg : registeredAt env base name with
    | some d0 =>
      simp only []
      constructor
      · intro h
        injection h with h
        subst h
        exact ⟨0, base, by simp, hreg, fun j c2 hj _ => absurd hj (Nat.not_lt_zero j)⟩
      · rintro ⟨i, c, hic, hr, hblock⟩
        cases i with
        | zero =>
          rw [List.getElem?_cons_zero] at hic
          injection hic with hic
          subst hic
          rw [hreg] at hr
          exact hr
        | succ i2 =>
          have h0 := hblock 0 base (Nat.succ_pos i2) (by simp)
          rw [hreg] at h0
          exact absurd h0 (by simp)
    | none =>
      simp only []
      rw [ih d]
      constructor
      · rintro ⟨i, c, hic, hr, hblock⟩
        refine ⟨i + 1, c, by simpa using hic, hr, ?_⟩
        intro j c2 hj hjc
        cases j with
        | zero =>
          rw [List.getElem?_cons_zero] at hjc
          injection hjc with hjc
          subst hjc
          exact hreg
        | succ j2 =>
          rw [List.getElem?_cons_succ] at hjc
          exact hblock j2 c2 (by omega) hjc
      · rintro ⟨i, c, hic, hr, hblock⟩
        cases i with
        | zero =>
          rw [List.getElem?_cons_zero] at hic
          injection hic with hic
          subst hic
          rw [hreg] at hr
          exact absurd hr (by simp)
        | succ i2 =>
          rw [List.getElem?_cons_succ] at hic
          refine ⟨i2, c, hic, hr, ?_⟩
          intro j c2 hj hjc
          exact hblock (j + 1) c2 (by omega) (by simpa using hjc)

theorem getUserFunction_none_iff (env : UserFunMap) (name : String) :
    ∀ lin : List Nat,
      getUserFunction env lin name = none ↔
        ∀ c ∈ lin, registeredAt env c name = none := by
  intro lin
  induction lin with
  | nil => simp [getUserFunction]
  | cons base rest ih =>
    rw [getUserFunction_cons]
    cases hreg : registeredAt env base name with
    | some d0 =>
      simp only []
      constructor
      · intro h; exact absurd h (by simp)
      · intro h
        have := h base (List.mem_cons_self base rest)
        rw [hreg] at this
        exact absurd this (by simp)
    | none =>
      simp only []
      rw [ih]
      constructor
      · intro h c hc
        rcases List.mem_cons.mp hc with rfl | hc
        · exact hreg
        · exact h c hc
      · intro h c hc
        exact h c (List.mem_cons_of_mem base hc)

/-- Claim C8: `TypeEnv.getUserFunction` returns the definition registered for
the first contract of the scope's linearized base-contract list that defines
the name (so a definition in a more-derived contract shadows a base one),
returns `undefined` (`none`) when no contract in the list defines it, and
`defineUserFunction` is the registration it reads back. -/
theorem getUserFunction_correct (env : UserFunMap) (lin : List Nat)
    (name : String) :
    (∀ d, getUserFunction env lin name = some d ↔
      ∃ (i : Nat) (c : Nat), lin[i]? = some c ∧ registeredAt env c name = some d ∧
        ∀ (j : Nat) (c2 : Nat), j < i → lin[j]? = some c2 →
          registeredAt env c2 name = none) ∧
    (getUserFunction env lin name = none ↔
      ∀ c ∈ lin, registeredAt env c name = none) ∧
    (∀ scope f, registeredAt (defineUserFunction env scope f) scope f.name = some f) := by
  refine ⟨fun d => getUserFunction_some_iff env name lin d,
    getUserFunction_none_iff env name lin, ?_⟩
  intro scope f
  simp only [registeredAt, defineUserFunction, mapGet_mapSet_self, Option.bind]

/-- Concrete instance of C8: the derived contract (id 0) defines `f`, so does
its base (id 1); the lookup from the derived scope returns the derived
definition. -/
theorem getUserFunction_correct_witness :
    getUserFunction (defineUserFunction (defineUserFunction [] 1 ⟨"f", 1⟩) 0 ⟨"f", 2⟩)
      [0, 1] "f" = some ⟨"f", 2⟩ :=
  ((getUserFunction_correct
      (defineUserFunction (defineUserFunction [] 1 ⟨"f", 1⟩) 0 ⟨"f", 2⟩)
      [0, 1] "f").1 ⟨"f", 2⟩).mpr
    ⟨0, 0, by decide, by decide, fun j c2 hj _ => absurd hj (Nat.not_lt_zero j)⟩

/-! ## Claim C9 — `util/instrumentation_metadata`: metadata source lists -/

/-- The three output modes of the tool. -/
inductive OutputMode
  | files
  | flat
  | json
deriving DecidableEq

/-- A source unit as seen by `generateInstrumentationMetadata` (identity plus
`absolutePath`). -/
structure UnitRef where
  uid : Nat
  absolutePath : String
deriving DecidableEq

/-- `generateInstrumentationMetadata`, first statement: the original source
list is the original units' absolute paths with the utils unit filtered out. -/
def originalPathsOf (originalUnits : List UnitRef) (utilsUnit : UnitRef) :
    List String :=
  (originalUnits.filter (fun u => decide (u ≠ utilsUnit))).map
    (fun u => u.absolutePath)

/-- `generateInstrumentationMetadata`, instrumented list before suffixing: in
`files` mode the original paths plus the utils unit's path; otherwise the one
output file (whose absence fires the `assert`, modelled as `none`). -/
def instrSourceListPre (base : List String) (utilsPath : String)
    (mode : OutputMode) (outputFile : Option String) : Option (List String) :=
  if mode = OutputMode.files then some (base ++ [utilsPath])
  else
    match outputFile with
    | none => none
    | some f => some [f]

/-- `generateInstrumentationMetadata` restricted to the two source lists of
the returned record (`originalSourceList`, `instrSourceList`); the property
map and src-to-src map it also builds are modelled separately. -/
def metadataSourceLists (originalUnits : List UnitRef) (utilsUnit : UnitRef)
    (mode : OutputMode) (outputFile : Option String) (arm : Bool) :
    Option (List String × List String) :=
  let base := originalPathsOf originalUnits utilsUnit
  match instrSourceListPre base utilsUnit.absolutePath mode outputFile with
  | none => none
  | some instr =>
    let instrSourceList := instr.map (fun nm =>
      if nm = "--" ∨ nm = utilsUnit.absolutePath then nm else nm ++ ".instrumented")
    let originalFinal :=
      if arm then base.map (fun nm => nm ++ ".original") else base
    some (originalFinal, instrSourceList)

/-- What claim C9 asserts of the two lists returned by
`generateInstrumentationMetadata`. -/
def MetadataListsSpec (originalUnits : List UnitRef) (utilsUnit : UnitRef)
    (mode : OutputMode) (outputFile : Option String) (arm : Bool)
    (origL instrL : List String) : Prop :=
  (arm = true →
    origL = (originalPathsOf originalUnits utilsUnit).map (fun nm => nm ++ ".original")) ∧
  (arm = false → origL = originalPathsOf originalUnits utilsUnit) ∧
  ∃ pre, instrSourceListPre (originalPathsOf originalUnits utilsUnit)
      utilsUnit.absolutePath mode outputFile = some pre ∧
    (mode = OutputMode.files →
      pre = originalPathsOf originalUnits utilsUnit ++ [utilsUnit.absolutePath]) ∧
    (mode ≠ OutputMode.files → ∃ f, outputFile = some f ∧ pre = [f]) ∧
    instrL.length = pre.length ∧
    (∀ (i : Nat) (nm : String), pre[i]? = some nm → nm ≠ "--" →
      nm ≠ utilsUnit.absolutePath → instrL[i]? = some (nm ++ ".instrumented")) ∧
    (∀ (i : Nat) (nm : String), pre[i]? = some nm →
      (nm = "--" ∨ nm = utilsUnit.absolutePath) → instrL[i]? = some nm)

/-- Claim C9: the returned `instrSourceList` is the instrumented source list
with `.instrumented` appended to every entry except the utils unit path and
the stdout marker `--` (kept verbatim), and `originalSourceList` carries the
`.original` suffix exactly when `--arm` was requested. -/
theorem metadataSourceLists_correct (originalUnits : List UnitRef)
    (utilsUnit : UnitRef) (mode : OutputMode) (outputFile : Option String)
    (arm : Bool) (origL instrL : List String)
    (h : metadataSourceLists originalUnits utilsUnit mode outputFile arm =
      some (origL, instrL)) :
    MetadataListsSpec originalUnits utilsUnit mode outputFile arm origL instrL := by
  simp only [metadataSourceLists] at h
  cases hpre : instrSourceListPre (originalPathsOf originalUnits utilsUnit)
      utilsUnit.absolutePath mode outputFile with
  | none => rw [hpre] at h; exact absurd h (by simp)
  | some pre =>
    rw [hpre] at h
    simp only [Option.some.injEq, Prod.mk.injEq] at h
    obtain ⟨ho, hi⟩ := h
    refine ⟨?_, ?_, pre, hpre, ?_, ?_, ?_, ?_, ?_⟩
    · intro ha; rw [← ho, ha]; simp
    · intro ha; rw [← ho, ha]; simp
    · intro hm
      simp only [instrSourceListPre, if_pos hm] at hpre
      injection hpre with hpre
      exact hpre.symm
    · intro hm
      simp only [instrSourceListPre, if_neg hm] at hpre
      cases hf : outputFile with
      | none => rw [hf] at hpre; exact absurd hpre (by simp)
      | some f =>
        rw [hf] at hpre
        injection hpre with hpre
        exact ⟨f, rfl, hpre.symm⟩
    · rw [← hi]; simp
    · intro i nm hnm h1 h2
      rw [← hi, List.getElem?_map, hnm, Option.map_some']
      rw [if_neg]
      rintro (hc | hc)
      · exact h1 hc
      · exact h2 hc
    · intro i nm hnm hor
      rw [← hi, List.getElem?_map, hnm, Option.map_some']
      rw [if_pos hor]

/-- Concrete instance of C9 in `files` mode without `--arm`: one real unit
plus the utils unit. -/
theorem metadataSourceLists_correct_witness :
    MetadataListsSpec [⟨0, "a.sol"⟩, ⟨1, "util.sol"⟩] ⟨1, "util.sol"⟩
      OutputMode.files none false ["a.sol"] ["a.sol.instrumented", "util.sol"] :=
  metadataSourceLists_correct [⟨0, "a.sol"⟩, ⟨1, "util.sol"⟩] ⟨1, "util.sol"⟩
    OutputMode.files none false ["a.sol"] ["a.sol.instrumented", "util.sol"]
    (by decide)

/-! ## Claim C5 — `util/instrumentation_metadata`: `generatePropertyMap` -/

/-- A source unit as seen through `ContractDefinition.vScope` (its source-list
entry key and index). -/
structure UnitInfo where
  sourceEntryKey : String
  sourceListIndex : Nat
deriving DecidableEq

/-- The data of a `ContractDefinition` used by `generatePropertyMap`. -/
structure ContractInfo where
  name : String
  scope : UnitInfo
deriving DecidableEq

/-- A spec-lang `Range` reduced to its start and end offsets. -/
structure SrcRange where
  startOff : Nat
  endOff : Nat
deriving DecidableEq

/-- `annotation.target` of a `PropertyMetaData`: a function or state variable
(with its `vScope` when that scope is a contract), or a contract. -/
inductive AnnTarget
  | fnTarget (scope : Option ContractInfo)
  | varTarget (scope : Option ContractInfo)
  | contractTarget (c : ContractInfo)
deriving DecidableEq

/-- `instrumenter/annotations` `PropertyMetaData` (an `if_succeeds` or
`invariant` annotation), reduced to the fields the metadata emitter reads. -/
structure PropertyMD where
  pid : Nat
  target : AnnTarget
  targetName : String
  message : String
  predicateFileLoc : SrcRange
  annotationFileRange : SrcRange
deriving DecidableEq

/-- `instrumenter/annotations` `AnnotationMetaData`: either a property
(`PropertyMetaData`) or a user function definition
(`UserFunctionDefinitionMetaData`, for `define` annotations). -/
inductive AnnotationMD
  | property (p : PropertyMD)
  | userFunction (uname : String)
deriving DecidableEq

/-- The `annot instanceof PropertyMetaData` test. -/
def isPropertyMD : AnnotationMD → Bool
  | .property _ => true
  | .userFunction _ => false

/-- Downcast to `PropertyMetaData`. -/
def toPropertyMD : AnnotationMD → Option PropertyMD
  | .property p => some p
  | .userFunction _ => none

/-- A host-AST node as the metadata emitter sees it: its id and the absolute
path of its enclosing source unit. -/
structure NodeRef where
  nid : Nat
  unitPath : String
deriving DecidableEq

/-- `getInstrFileIdx`: 0 outside `files` mode, else the index of the node's
unit in the instrumented source list (the `assert idx !== -1` is `none`). -/
def getInstrFileIdx (node : NodeRef) (mode : OutputMode)
    (instrSourceList : List String) : Option Nat :=
  if mode ≠ OutputMode.files then some 0
  else
    match instrSourceList.findIdx? (fun p => decide (p = node.unitPath)) with
    | some idx => some idx
    | none => none

/-- `rangeToSrc`: start offset, length, file index, colon-separated. -/
def rangeToSrc (r : SrcRange) (fileIdx : Nat) : String :=
  toString r.startOff ++ ":" ++ toString (r.endOff - r.startOff) ++ ":" ++
    toString fileIdx

/-- A new-source-map entry printed as `offset:length:fileIdx`. -/
def srcEntryStr (o l idx : Nat) : String :=
  toString o ++ ":" ++ toString l ++ ":" ++ toString idx

/-- The string `generatePropertyMap` builds for one instrumentation node: its
entry in `newSrcMap` (the `assert src !== undefined` is `none`) paired with
its instrumented file index. -/
def nodeSrcString (newSrcMap : List (Nat × (Nat × Nat))) (mode : OutputMode)
    (instrSourceList : List String) (node : NodeRef) : Option String :=
  match mapGet newSrcMap node.nid, getInstrFileIdx node mode instrSourceList with
  | some (o, l), some idx => some (srcEntryStr o l idx)
  | _, _ => none

/-- Option-valued map over a list (`none` as soon as one element fails). -/
def mapOpt {α β : Type} (f : α → Option β) : List α → Option (List β)
  | [] => some []
  | x :: xs =>
    match f x, mapOpt f xs with
    | some y, some ys => some (y :: ys)
    | _, _ => none

/-- The instrumentation context fields `generatePropertyMap` reads. The JS
maps keyed by annotation objects are keyed here by the annotation id, which
the extractor assigns uniquely and monotonically. -/
structure InstrCtx where
  annots : List AnnotationMD
  debugEventDefs : List (Nat × String)
  evaluationStatements : List (Nat × List NodeRef)
  instrumetnedCheck : List (Nat × List NodeRef)
  outputMode : OutputMode
deriving DecidableEq

/-- One record of the emitted `propertyMap` (`PropertyDesc`). -/
structure PropertyDesc where
  pid : Nat
  contract : String
  filename : String
  propertySource : String
  annotationSource : String
  target : String
  targetName : String
  debugEventSignature : String
  message : String
  instrumentationRanges : List String
  checkRanges : List String
deriving DecidableEq

/-- The contract and target-kind string `generatePropertyMap` derives from an
annotation target; `none` models the two failing asserts (free functions,
non-state variables). -/
def targetInfo : AnnTarget → Option (ContractInfo × String)
  | .fnTarget (some c) => some (c, "function")
  | .fnTarget none => none
  | .varTarget (some c) => some (c, "variable")
  | .varTarget none => none
  | .contractTarget c => some (c, "contract")

/-- The record `generatePropertyMap` pushes for one `PropertyMetaData`. -/
def propertyRecordOf (ctx : InstrCtx) (newSrcMap : List (Nat × (Nat × Nat)))
    (instrSourceList : List String) (p : PropertyMD) : Option PropertyDesc :=
  match targetInfo p.target with
  | none => none
  | some (c, targetType) =>
    let unit := c.scope
    let signature := (mapGet ctx.debugEventDefs p.pid).getD ""
    let propertySource := rangeToSrc p.predicateFileLoc unit.sourceListIndex
    let annotationSource := rangeToSrc p.annotationFileRange unit.sourceListIndex
    match mapGet ctx.evaluationStatements p.pid with
    | none => none
    | some evalNodes =>
      match mapOpt (nodeSrcString newSrcMap ctx.outputMode instrSourceList) evalNodes with
      | none => none
      | some instrRanges =>
        match mapGet ctx.instrumetnedCheck p.pid with
        | none => none
        | some checkNodes =>
          match mapOpt (nodeSrcString newSrcMap ctx.outputMode instrSourceList) checkNodes with
          | none => none
          | some checkRs =>
            some { pid := p.pid, contract := c.name,
                   filename := unit.sourceEntryKey,
                   propertySource := propertySource,
                   annotationSource := annotationSource,
                   target := targetType, targetName := p.targetName,
                   debugEventSignature := signature, message := p.message,
                   instrumentationRanges := dedup instrRanges,
                   checkRanges := dedup checkRs }

/-- `generatePropertyMap`: walk `ctx.annotations`, skip annotations that are
not `PropertyMetaData`, and push one record per property. -/
def generatePropertyMap (ctx : InstrCtx) (newSrcMap : List (Nat × (Nat × Nat)))
    (instrSourceList : List String) : Option (List PropertyDesc) :=
  mapOpt (propertyRecordOf ctx newSrcMap instrSourceList)
    (ctx.annots.filterMap toPropertyMD)

/-- The field agreement claim C5 requires between a property annotation and
its emitted record. -/
def RecordMatches (ctx : InstrCtx) (p : PropertyMD) (d : PropertyDesc) : Prop :=
  d.pid = p.pid ∧ d.targetName = p.targetName ∧ d.message = p.message ∧
  d.debugEventSignature = (mapGet ctx.debugEventDefs p.pid).getD "" ∧
  ∃ c tt, targetInfo p.target = some (c, tt) ∧ d.contract = c.name ∧
    d.target = tt ∧ d.filename = c.scope.sourceEntryKey ∧
    d.propertySource = rangeToSrc p.predicateFileLoc c.scope.sourceListIndex ∧
    d.annotationSource = rangeToSrc p.annotationFileRange c.scope.sourceListIndex

/-- What claim C5 asserts of a successful `generatePropertyMap` run. -/
def PropertyMapSpec (ctx : InstrCtx) (result : List PropertyDesc) : Prop :=
  result.length = (ctx.annots.filter isPropertyMD).length ∧
  ∀ (i : Nat) (p : PropertyMD), (ctx.annots.filterMap toPropertyMD)[i]? = some p →
    ∃ d, result[i]? = some d ∧ RecordMatches ctx p d

theorem mapOpt_length {α β : Type} (f : α → Option β) :
    ∀ (l : List α) (r : List β), mapOpt f l = some r → r.length = l.length := by
  intro l
  induction l with
  | nil =>
    intro r h
    simp only [mapOpt, Option.some.injEq] at h
    rw [← h]
    rfl
  | cons x xs ih =>
    intro r h
    simp only [mapOpt] at h
    cases hx : f x with
    | none => rw [hx] at h; exact absurd h (by simp)
    | some y =>
      rw [hx] at h
      cases hxs : mapOpt f xs with
      | none => rw [hxs] at h; exact absurd h (by simp)
      | some ys =>
        rw [hxs] at h
        injection h with h
        rw [← h]
        simp [ih ys hxs]

theorem mapOpt_getElem {α β : Type} (f : α → Option β) :
    ∀ (l : List α) (r : List β), mapOpt f l = some r →
      ∀ (i : Nat) (x : α), l[i]? = some x → ∃ y, r[i]? = some y ∧ f x = some y := by
  intro l
  induction l with
  | nil =>
    intro r _ i x h
    simp at h
  | cons a as ih =>
    intro r h i x hx
    simp only [mapOpt] at h
    cases ha : f a with
    | none => rw [ha] at h; exact absurd h (by simp)
    | some y =>
      rw [ha] at h
      cases has : mapOpt f as with
      | none => rw [has] at h; exact absurd h (by simp)
      | some ys =>
        rw [has] at h
        injection h with h
        subst h
        cases i with
        | zero =>
          rw [List.getElem?_cons_zero] at hx
          injection hx with hx
          subst hx
          exact ⟨y, by simp, ha⟩
        | succ i2 =>
          rw [List.getElem?_cons_succ] at hx
          obtain ⟨y2, hy2, hfy2⟩ := ih ys has i2 x hx
          exact ⟨y2, by simpa using hy2, hfy2⟩

theorem filterMap_toPropertyMD_length :
    ∀ l : List AnnotationMD,
      (l.filterMap toPropertyMD).length = (l.filter isPropertyMD).length := by
  intro l
  induction l with
  | nil => rfl
  | cons a as ih =>
    cases a with
    | property p => simp [List.filterMap_cons, List.filter_cons, toPropertyMD, isPropertyMD, ih]
    | userFunction u => simp [List.filterMap_cons, List.filter_cons, toPropertyMD, isPropertyMD, ih]

theorem propertyRecordOf_matches (ctx : InstrCtx)
    (newSrcMap : List (Nat × (Nat × Nat))) (instrSourceList : List String)
    (p : PropertyMD) (d : PropertyDesc)
    (h : propertyRecordOf ctx newSrcMap instrSourceList p = some d) :
    RecordMatches ctx p d := by
  simp only [propertyRecordOf] at h
  split at h
  · exact absurd h (by simp)
  · rename_i c tt ht
    split at h
    · exact absurd h (by simp)
    · split at h
      · exact absurd h (by simp)
      · split at h
        · exact absurd h (by simp)
        · split at h
          · exact absurd h (by simp)
          · injection h with h
            subst h
            exact ⟨rfl, rfl, rfl, rfl, c, tt, ht, rfl, rfl, rfl, rfl, rfl⟩

/-- Claim C5: a successful `generatePropertyMap` emits exactly one record per
property-kind annotation of the context — in order, each record carrying that
annotation's id, enclosing contract name, target kind, target name, message,
debug-event signature, and property/annotation source ranges — and `define`
(user-function) annotations contribute no record. -/
theorem generatePropertyMap_correct (ctx : InstrCtx)
    (newSrcMap : List (Nat × (Nat × Nat))) (instrSourceList : List String)
    (result : List PropertyDesc)
    (h : generatePropertyMap ctx newSrcMap instrSourceList = some result) :
    PropertyMapSpec ctx result := by
  simp only [generatePropertyMap] at h
  constructor
  · rw [mapOpt_length _ _ _ h, filterMap_toPropertyMD_length]
  · intro i p hp
    obtain ⟨d, hd, hfd⟩ := mapOpt_getElem _ _ _ h i p hp
    exact ⟨d, hd, propertyRecordOf_matches ctx newSrcMap instrSourceList p d hfd⟩

/-- Concrete instance of C5: one contract-invariant property and one `define`
annotation; the emitted map has exactly one record, matching the property. -/
theorem generatePropertyMap_correct_witness :
    PropertyMapSpec
      { annots := [AnnotationMD.property
          ⟨7, AnnTarget.contractTarget ⟨"A", ⟨"a.sol", 0⟩⟩, "A", "inv msg",
            ⟨10, 20⟩, ⟨5, 25⟩⟩,
          AnnotationMD.userFunction "uf"],
        debugEventDefs := [(7, "AssertionFailed(string)")],
        evaluationStatements := [(7, [⟨100, "a.sol"⟩])],
        instrumetnedCheck := [(7, [⟨101, "a.sol"⟩])],
        outputMode := OutputMode.flat }
      [⟨7, "A", "a.sol", "10:10:0", "5:20:0", "contract", "A",
        "AssertionFailed(string)", "inv msg", ["1:2:0"], ["3:4:0"]⟩] :=
  generatePropertyMap_correct
    { annots := [AnnotationMD.property
        ⟨7, AnnTarget.contractTarget ⟨"A", ⟨"a.sol", 0⟩⟩, "A", "inv msg",
          ⟨10, 20⟩, ⟨5, 25⟩⟩,
        AnnotationMD.userFunction "uf"],
      debugEventDefs := [(7, "AssertionFailed(string)")],
      evaluationStatements := [(7, [⟨100, "a.sol"⟩])],
      instrumetnedCheck := [(7, [⟨101, "a.sol"⟩])],
      outputMode := OutputMode.flat }
    [(100, (1, 2)), (101, (3, 4))] ["out.sol"]
    [⟨7, "A", "a.sol", "10:10:0", "5:20:0", "contract", "A",
      "AssertionFailed(string)", "inv msg", ["1:2:0"], ["3:4:0"]⟩]
    (by decide)

/-! ## Claim C1 — `bin/scribble`: `computeContractsNeedingInstr` -/

/-- `instrumenter/cha` `CHA`: parent and child maps over contracts (contracts
as ids; `contracts` is the finite key set of the two maps). -/
structure CHAm where
  contracts : List Nat
  parents : Nat → List Nat
  children : Nat → List Nat

/-- The parent and child edges of one contract — the two push loops of the
BFS body visit exactly these neighbours. -/
def chaEdges (cha : CHAm) (v : Nat) : List Nat := cha.parents v ++ cha.children v

/-- JS `Array.push` of several items onto a stack whose top is the list head
(so later pushes end nearer the head, i.e. are popped first, as in JS). -/
def pushAll (items wave : List Nat) : List Nat :=
  items.foldl (fun w x => x :: w) wave

/-- The `while (wave.length > 0)` loop of `computeContractsNeedingInstr`:
pop, skip if visited, else mark visited and push the unvisited parents and
children. Fuel makes the recursion structural; `computeContractsNeedingInstr`
supplies enough fuel for the loop to run until the wave empties. -/
def bfsAux (cha : CHAm) : Nat → List Nat → List Nat → List Nat
  | 0, _, visited => visited
  | _ + 1, [], visited => visited
  | fuel + 1, cur :: wave, visited =>
    if cur ∈ visited then bfsAux cha fuel wave visited
    else
      bfsAux cha fuel
        (pushAll ((chaEdges cha cur).filter (fun w => decide (w ∉ cur :: visited))) wave)
        (cur :: visited)

/-- Sum of edge-list lengths over the not-yet-visited contracts of a domain:
the potential that bounds the BFS loop's iteration count. -/
def degSum (cha : CHAm) (dom visited : List Nat) : Nat :=
  ((dom.filter (fun v => decide (v ∉ visited))).map
    (fun v => (chaEdges cha v).length)).sum

/-- The wave seeding the BFS: contracts whose extracted annotation list
contains at least one `PropertyMetaData`
(`annots.filter(a => a instanceof PropertyMetaData).length > 0`). -/
def seedsOf (contractAnnotMap : List (Nat × List AnnotationMD)) : List Nat :=
  (contractAnnotMap.filter
    (fun p => decide ((p.2.filter isPropertyMD).length > 0))).map Prod.fst

/-- `bin/scribble` `computeContractsNeedingInstr`: BFS over parent and child
edges starting from every annotated contract; returns the visited set. -/
def computeContractsNeedingInstr (cha : CHAm)
    (contractAnnotMap : List (Nat × List AnnotationMD)) : List Nat :=
  let wave := seedsOf contractAnnotMap
  bfsAux cha (wave.length + degSum cha (dedup cha.contracts) []) wave []

/-- Reachability by following parent and child edges transitively. -/
def ReachCHA (cha : CHAm) (a b : Nat) : Prop :=
  Relation.ReflTransGen (fun x y => y ∈ chaEdges cha x) a b

theorem bfsAux_nil (cha : CHAm) (fuel : Nat) (visited : List Nat) :
    bfsAux cha (fuel + 1) [] visited = visited := rfl

theorem bfsAux_cons_mem (cha : CHAm) (fuel cur : Nat) (rest visited : List Nat)
    (h : cur ∈ visited) :
    bfsAux cha (fuel + 1) (cur :: rest) visited = bfsAux cha fuel rest visited := by
  rw [bfsAux, if_pos h]

theorem bfsAux_cons_new (cha : CHAm) (fuel cur : Nat) (rest visited : List Nat)
    (h : cur ∉ visited) :
    bfsAux cha (fuel + 1) (cur :: rest) visited =
      bfsAux cha fuel
        (pushAll ((chaEdges cha cur).filter (fun w => decide (w ∉ cur :: visited))) rest)
        (cur :: visited) := by
  rw [bfsAux, if_neg h]

theorem mem_pushAll (x : Nat) :
    ∀ (items wave : List Nat), x ∈ pushAll items wave ↔ x ∈ items ∨ x ∈ wave := by
  intro items
  induction items with
  | nil => intro wave; simp [pushAll]
  | cons a as ih =>
    intro wave
    show x ∈ pushAll as (a :: wave) ↔ _
    rw [ih]
    simp only [List.mem_cons]
    tauto

theorem length_pushAll :
    ∀ (items wave : List Nat), (pushAll items wave).length = items.length + wave.length := by
  intro items
  induction items with
  | nil => intro wave; simp [pushAll]
  | cons a as ih =>
    intro wave
    show (pushAll as (a :: wave)).length = _
    rw [ih]
    simp only [List.length_cons]
    omega

theorem degSum_cons_visited (cha : CHAm) :
    ∀ (dom visited : List Nat) (v : Nat), dom.Nodup → v ∈ dom → v ∉ visited →
      degSum cha dom visited = (chaEdges cha v).length + degSum cha dom (v :: visited) := by
  intro dom
  induction dom with
  | nil => intro visited v _ hv; simp at hv
  | cons d ds ih =>
    intro visited v hnd hv hnv
    simp only [List.nodup_cons] at hnd
    rcases List.mem_cons.mp hv with rfl | hv2
    · have p1 : decide (v ∉ visited) = true := by simp [hnv]
      have p2 : decide (v ∉ v :: visited) = false := by simp
      have hfilter : ds.filter (fun x => decide (x ∉ v :: visited)) =
          ds.filter (fun x => decide (x ∉ visited)) := by
        apply List.filter_congr
        intro x hx
        have hxv : x ≠ v := fun hc => hnd.1 (hc ▸ hx)
        simp [List.mem_cons, hxv]
      simp only [degSum, List.filter_cons, p1, p2, if_true, if_false, cond_true,
        cond_false, List.map_cons, List.sum_cons, hfilter]
      simp
    · have hdv : d ≠ v := fun hc => hnd.1 (hc ▸ hv2)
      have heq : (decide (d ∉ v :: visited)) = (decide (d ∉ visited)) := by
        simp [List.mem_cons, hdv]
      by_cases hdvis : d ∈ visited
      · have p1 : decide (d ∉ visited) = false := by simp [hdvis]
        simp only [degSum, List.filter_cons, heq, p1, cond_false, if_false]
        exact ih visited v hnd.2 hv2 hnv
      · have p1 : decide (d ∉ visited) = true := by simp [hdvis]
        simp only [degSum, List.filter_cons, heq, p1, cond_true, if_true,
          List.map_cons, List.sum_cons]
        have := ih visited v hnd.2 hv2 hnv
        simp only [degSum] at this
        omega

theorem bfsAux_sound (cha : CHAm) (R : Nat → Prop)
    (hR : ∀ v, R v → ∀ w ∈ chaEdges cha v, R w) :
    ∀ (fuel : Nat) (wave visited : List Nat),
      (∀ v ∈ visited, R v) → (∀ w ∈ wave, R w) →
      ∀ x ∈ bfsAux cha fuel wave visited, R x := by
  intro fuel
  induction fuel with
  | zero => intro wave visited hv _ x hx; exact hv x hx
  | succ fuel ih =>
    intro wave visited hv hw x hx
    cases wave with
    | nil =>
      rw [bfsAux_nil] at hx
      exact hv x hx
    | cons cur rest =>
      by_cases hcur : cur ∈ visited
      · rw [bfsAux_cons_mem cha fuel cur rest visited hcur] at hx
        exact ih rest visited hv (fun w hw2 => hw w (List.mem_cons_of_mem cur hw2)) x hx
      · rw [bfsAux_cons_new cha fuel cur rest visited hcur] at hx
        have hRcur : R cur := hw cur (List.mem_cons_self cur rest)
        refine ih _ (cur :: visited) ?_ ?_ x hx
        · intro v hv2
          rcases List.mem_cons.mp hv2 with rfl | hv3
          · exact hRcur
          · exact hv v hv3
        · intro w hw2
          rcases (mem_pushAll w _ rest).mp hw2 with h | h
          · exact hR cur hRcur w (List.mem_filter.mp h).1
          · exact hw w (List.mem_cons_of_mem cur h)

theorem bfsAux_complete (cha : CHAm) (dom : List Nat) (hnd : dom.Nodup)
    (hcl : ∀ v ∈ dom, ∀ w ∈ chaEdges cha v, w ∈ dom) :
    ∀ (fuel : Nat) (wave visited : List Nat),
      (∀ w ∈ wave, w ∈ dom) → (∀ v ∈ visited, v ∈ dom) → visited.Nodup →
      (∀ v ∈ visited, ∀ w ∈ chaEdges cha v, w ∈ visited ∨ w ∈ wave) →
      wave.length + degSum cha dom visited ≤ fuel →
      (∀ v ∈ visited, v ∈ bfsAux cha fuel wave visited) ∧
      (∀ w ∈ wave, w ∈ bfsAux cha fuel wave visited) ∧
      (∀ v ∈ bfsAux cha fuel wave visited, ∀ w ∈ chaEdges cha v,
        w ∈ bfsAux cha fuel wave visited) := by
  intro fuel
  induction fuel with
  | zero =>
    intro wave visited hwd _ _ hclv hbound
    have hw : wave = [] := by
      have : wave.length = 0 := by omega
      exact List.length_eq_zero.mp this
    subst hw
    refine ⟨fun v hv => hv, fun w hw2 => absurd hw2 (List.not_mem_nil w), ?_⟩
    intro v hv w hw2
    rcases hclv v hv w hw2 with h | h
    · exact h
    · exact absurd h (List.not_mem_nil w)
  | succ fuel ih =>
    intro wave visited hwd hvd hvnd hclv hbound
    cases wave with
    | nil =>
      rw [bfsAux_nil]
      refine ⟨fun v hv => hv, fun w hw2 => absurd hw2 (List.not_mem_nil w), ?_⟩
      intro v hv w hw2
      rcases hclv v hv w hw2 with h | h
      · exact h
      · exact absurd h (List.not_mem_nil w)
    | cons cur rest =>
      by_cases hcur : cur ∈ visited
      · rw [bfsAux_cons_mem cha fuel cur rest visited hcur]
        have hclv2 : ∀ v ∈ visited, ∀ w ∈ chaEdges cha v, w ∈ visited ∨ w ∈ rest := by
          intro v hv w hw2
          rcases hclv v hv w hw2 with h | h
          · exact Or.inl h
          · rcases List.mem_cons.mp h with rfl | h2
            · exact Or.inl hcur
            · exact Or.inr h2
        have hbound2 : rest.length + degSum cha dom visited ≤ fuel := by
          simp only [List.length_cons] at hbound; omega
        obtain ⟨c1, c2, c3⟩ := ih rest visited
          (fun w hw2 => hwd w (List.mem_cons_of_mem cur hw2)) hvd hvnd hclv2 hbound2
        refine ⟨c1, ?_, c3⟩
        intro w hw2
        rcases List.mem_cons.mp hw2 with rfl | h2
        · exact c1 w hcur
        · exact c2 w h2
      · rw [bfsAux_cons_new cha fuel cur rest visited hcur]
        have hcd : cur ∈ dom := hwd cur (List.mem_cons_self cur rest)
        have hwd2 : ∀ w ∈ pushAll ((chaEdges cha cur).filter
            (fun w => decide (w ∉ cur :: visited))) rest, w ∈ dom := by
          intro w hw2
          rcases (mem_pushAll w _ rest).mp hw2 with h | h
          · exact hcl cur hcd w (List.mem_filter.mp h).1
          · exact hwd w (List.mem_cons_of_mem cur h)
        have hvd2 : ∀ v ∈ cur :: visited, v ∈ dom := by
          intro v hv
          rcases List.mem_cons.mp hv with rfl | hv2
          · exact hcd
          · exact hvd v hv2
        have hvnd2 : (cur :: visited).Nodup := List.nodup_cons.mpr ⟨hcur, hvnd⟩
        have hclv2 : ∀ v ∈ cur :: visited, ∀ w ∈ chaEdges cha v,
            w ∈ cur :: visited ∨ w ∈ pushAll ((chaEdges cha cur).filter
              (fun w => decide (w ∉ cur :: visited))) rest := by
          intro v hv w hw2
          rcases List.mem_cons.mp hv with rfl | hv2
          · by_cases hwv : w ∈ v :: visited
            · exact Or.inl hwv
            · refine Or.inr ((mem_pushAll w _ rest).mpr (Or.inl ?_))
              exact List.mem_filter.mpr ⟨hw2, by simpa using hwv⟩
          · rcases hclv v hv2 w hw2 with h | h
            · exact Or.inl (List.mem_cons_of_mem cur h)
            · rcases List.mem_cons.mp h with rfl | h2
              · exact Or.inl (List.mem_cons_self w visited)
              · exact Or.inr ((mem_pushAll w _ rest).mpr (Or.inr h2))
        have hbound2 : (pushAll ((chaEdges cha cur).filter
              (fun w => decide (w ∉ cur :: visited))) rest).length +
            degSum cha dom (cur :: visited) ≤ fuel := by
          rw [length_pushAll]
          have hf : ((chaEdges cha cur).filter
              (fun w => decide (w ∉ cur :: visited))).length ≤
              (chaEdges cha cur).length := List.length_filter_le _ _
          have hsplit := degSum_cons_visited cha dom visited cur hnd hcd hcur
          simp only [List.length_cons] at hbound
          omega
        obtain ⟨c1, c2, c3⟩ := ih _ (cur :: visited) hwd2 hvd2 hvnd2 hclv2 hbound2
        refine ⟨fun v hv => c1 v (List.mem_cons_of_mem cur hv), ?_, c3⟩
        intro w hw2
        rcases List.mem_cons.mp hw2 with rfl | h2
        · exact c1 w (List.mem_cons_self w visited)
        · exact c2 w ((mem_pushAll w _ rest).mpr (Or.inr h2))

/-- Claim C1: `computeContractsNeedingInstr` returns exactly the contracts
reachable, by following parent and child edges transitively, from some
contract whose annotation list contains at least one property-kind
(`PropertyMetaData`) annotation. The hypotheses say the annotated contracts
lie in the CHA's contract set and that the parent/child maps stay inside it. -/
theorem computeContractsNeedingInstr_correct (cha : CHAm)
    (contractAnnotMap : List (Nat × List AnnotationMD))
    (hseeds : ∀ s ∈ seedsOf contractAnnotMap, s ∈ cha.contracts)
    (hclosed : ∀ v ∈ cha.contracts, ∀ w ∈ chaEdges cha v, w ∈ cha.contracts) :
    (∀ s : Nat, s ∈ seedsOf contractAnnotMap ↔
      ∃ annots, (s, annots) ∈ contractAnnotMap ∧ ∃ a ∈ annots, isPropertyMD a = true) ∧
    (∀ c : Nat, c ∈ computeContractsNeedingInstr cha contractAnnotMap ↔
      ∃ s ∈ seedsOf contractAnnotMap, ReachCHA cha s c) := by
  constructor
  · intro s
    simp only [seedsOf, List.mem_map, List.mem_filter]
    constructor
    · rintro ⟨⟨s0, annots⟩, ⟨hmem, hlen⟩, rfl⟩
      refine ⟨annots, hmem, ?_⟩
      simp only [decide_eq_true_eq] at hlen
      have : (annots.filter isPropertyMD) ≠ [] := by
        intro hc
        rw [hc] at hlen
        simp at hlen
      obtain ⟨a, ha⟩ := List.exists_mem_of_ne_nil _ this
      exact ⟨a, (List.mem_filter.mp ha).1, (List.mem_filter.mp ha).2⟩
    · rintro ⟨annots, hmem, a, ha, hpa⟩
      refine ⟨(s, annots), ⟨hmem, ?_⟩, rfl⟩
      simp only [decide_eq_true_eq]
      have : a ∈ annots.filter isPropertyMD := List.mem_filter.mpr ⟨ha, hpa⟩
      exact List.length_pos.mpr (List.ne_nil_of_mem this)
  · intro c
    constructor
    · intro hc
      refine bfsAux_sound cha (fun x => ∃ s ∈ seedsOf contractAnnotMap, ReachCHA cha s x)
        ?_ _ (seedsOf contractAnnotMap) [] (by simp) ?_ c hc
      · rintro v ⟨s, hs, hreach⟩ w hw
        exact ⟨s, hs, Relation.ReflTransGen.tail hreach hw⟩
      · intro w hw
        exact ⟨w, hw, Relation.ReflTransGen.refl⟩
    · rintro ⟨s, hs, hreach⟩
      have hnd : (dedup cha.contracts).Nodup := nodup_dedup cha.contracts
      have hcl : ∀ v ∈ dedup cha.contracts, ∀ w ∈ chaEdges cha v,
          w ∈ dedup cha.contracts := by
        intro v hv w hw
        exact (mem_dedup w _).mpr (hclosed v ((mem_dedup v _).mp hv) w hw)
      obtain ⟨c1, c2, c3⟩ := bfsAux_complete cha (dedup cha.contracts) hnd hcl
        ((seedsOf contractAnnotMap).length + degSum cha (dedup cha.contracts) [])
        (seedsOf contractAnnotMap) []
        (fun w hw => (mem_dedup w _).mpr (hseeds w hw))
        (by simp) (by simp) (by simp) (le_refl _)
      show c ∈ bfsAux cha _ (seedsOf contractAnnotMap) []
      induction hreach with
      | refl => exact c2 s hs
      | tail h1 h2 ih3 => exact c3 _ ih3 _ h2

/-- Concrete instance of C1: contract 0 carries a property annotation,
contract 1 is its parent; BFS reaches 1. -/
theorem computeContractsNeedingInstr_correct_witness :
    1 ∈ computeContractsNeedingInstr
      { contracts := [0, 1], parents := fun v => if v = 0 then [1] else [],
        children := fun _ => [] }
      [(0, [AnnotationMD.userFunction "u",
            AnnotationMD.property
              ⟨0, AnnTarget.contractTarget ⟨"A", ⟨"a.sol", 0⟩⟩, "A", "",
                ⟨0, 0⟩, ⟨0, 0⟩⟩])] :=
  ((computeContractsNeedingInstr_correct
      { contracts := [0, 1], parents := fun v => if v = 0 then [1] else [],
        children := fun _ => [] }
      [(0, [AnnotationMD.userFunction "u",
            AnnotationMD.property
              ⟨0, AnnTarget.contractTarget ⟨"A", ⟨"a.sol", 0⟩⟩, "A", "",
                ⟨0, 0⟩, ⟨0, 0⟩⟩])]
      (by decide) (by decide)).2 1).mpr
    ⟨0, by decide, Relation.ReflTransGen.single (by decide)⟩

/-! ## Claims C6 and C7 — `bin/scribble`: the `instrumentFiles` worklist -/

/-- `solc-typed-ast` `ContractKind`. -/
inductive ContractKind
  | Contract
  | Library
  | Interface
deriving DecidableEq

/-- `solc-typed-ast` `FunctionKind`. -/
inductive FunKind
  | Function
  | Constructor
  | Fallback
  | Receive
deriving DecidableEq

/-- `solc-typed-ast` `FunctionVisibility` (the cases the claim needs). -/
inductive Visibility
  | External
  | Public
  | Internal
  | Private
deriving DecidableEq

/-- `solc-typed-ast` `FunctionStateMutability`. -/
inductive Mutability
  | Pure
  | View
  | Constant
  | NonPayable
  | Payable
deriving DecidableEq

/-- A `FunctionDefinition` as `instrumentFiles` inspects it: body presence
(`vBody !== undefined`), visibility, mutability, kind, and the annotations the
extractor returns for it (`getAnnotationsOrDie(fun, ctx.files, filters)`). -/
structure FunDef where
  fname : String
  hasBody : Bool
  visibility : Visibility
  mutability : Mutability
  kind : FunKind
  fannots : List AnnotationMD
deriving DecidableEq

/-- Modelled from the spec: `util.isExternallyVisible` lives in `src/util`,
which is not under `src/`; per the code comment in `instrumentFiles`
("They are external or public"), a function is externally visible when its
visibility is external or public. -/
def isExternallyVisible (f : FunDef) : Bool :=
  decide (f.visibility = Visibility.External) || decide (f.visibility = Visibility.Public)

/-- Modelled from the spec: `util.isChangingState` lives in `src/util`, which
is not under `src/`; per the code comment in `instrumentFiles` ("they modify
state (not constant/pure/view)"), a function changes state when it is not
constant, pure or view. -/
def isChangingState (f : FunDef) : Bool :=
  !(decide (f.mutability = Mutability.Pure) || decide (f.mutability = Mutability.View) ||
    decide (f.mutability = Mutability.Constant))

/-- A `ContractDefinition` as `instrumentFiles` inspects it. -/
structure ContractDef where
  cid : Nat
  cname : String
  kind : ContractKind
  functions : List FunDef
deriving DecidableEq

/-- A `SourceUnit` reduced to its `vContracts`. -/
structure SourceUnitC where
  contracts : List ContractDef
deriving DecidableEq

/-- `instrumenter/annotations`: the
`annot instanceof UserFunctionDefinitionMetaData` test. -/
def isUserFunctionMD : AnnotationMD → Bool
  | .userFunction _ => true
  | .property _ => false

/-- One worklist entry of `instrumentFiles`: contract, optional function
(`undefined` marks contract-level instrumentation), annotations. -/
def WorkItem : Type := ContractDef × Option FunDef × List AnnotationMD

instance : DecidableEq WorkItem := by
  unfold WorkItem
  infer_instance

/-- The function-interposition condition of `instrumentFiles`:
`annotations.length > 0 || (needsStateInvariantInstr && isExternallyVisible(fun)
&& isChangingState(fun) && contract.kind === Contract
&& fun.kind === Function)`. -/
def funSelected (needsStateInvariantInstr : Bool) (c : ContractDef) (f : FunDef) : Bool :=
  decide (f.fannots.length > 0) ||
    (needsStateInvariantInstr && isExternallyVisible f && isChangingState f &&
      decide (c.kind = ContractKind.Contract) && decide (f.kind = FunKind.Function))

/-- The worklist `instrumentFiles` builds: per unit, per contract — skip
interfaces entirely; push a contract-level entry when the contract needs
state-invariant instrumentation or its annotation list has user-function
(`define`) entries; then push every function with a body that passes
`funSelected`. The instrumenters that later consume the worklist are outside
this model. -/
def instrumentWorklist (units : List SourceUnitC)
    (contractInvMap : List (Nat × List AnnotationMD))
    (contractsNeedingInstr : List Nat) : List WorkItem :=
  units.flatMap (fun u =>
    u.contracts.flatMap (fun c =>
      let contractAnnot := (mapGet contractInvMap c.cid).getD []
      let userFuns := contractAnnot.filter isUserFunctionMD
      let needs := decide (c.cid ∈ contractsNeedingInstr)
      if c.kind = ContractKind.Interface then []
      else
        (if needs || decide (userFuns.length > 0) then
          [((c, none, contractAnnot) : WorkItem)]
        else []) ++
        c.functions.filterMap (fun f =>
          if f.hasBody = false then none
          else if funSelected needs c f then
            some ((c, some f, f.fannots) : WorkItem)
          else none)))

/-- The assert guarding the contract-level push
(`![ContractKind.Library, ContractKind.Interface].includes(contract.kind)`);
`true` means some contract-level entry violates it, i.e. the internal
assertion of `instrumentFiles` fires and the run aborts. -/
def contractInvAssertFires (units : List SourceUnitC)
    (contractInvMap : List (Nat × List AnnotationMD))
    (contractsNeedingInstr : List Nat) : Bool :=
  (instrumentWorklist units contractInvMap contractsNeedingInstr).any
    (fun item => decide (item.2.1 = none) &&
      decide (item.1.kind = ContractKind.Library ∨ item.1.kind = ContractKind.Interface))

theorem funEntry_eq_some (needs : Bool) (c : ContractDef) (f : FunDef)
    (item : WorkItem) :
    (if f.hasBody = false then none
     else if funSelected needs c f then some ((c, some f, f.fannots) : WorkItem)
     else none) = some item ↔
      f.hasBody = true ∧ funSelected needs c f = true ∧ item = (c, some f, f.fannots) := by
  by_cases hb : f.hasBody = false
  · rw [if_pos hb]
    simp [hb]
  · have hb2 : f.hasBody = true := by
      cases hbv : f.hasBody
      · exact absurd hbv hb
      · rfl
    rw [if_neg hb]
    by_cases hs : funSelected needs c f = true
    · rw [if_pos hs]
      simp only [Option.some.injEq, hb2, hs, true_and]
      constructor
      · intro h; exact h.symm
      · intro h; exact h.symm
    · rw [if_neg hs]
      simp [hs]

/-- Membership in the `instrumentFiles` worklist, unfolded. -/
theorem mem_instrumentWorklist (units : List SourceUnitC)
    (contractInvMap : List (Nat × List AnnotationMD))
    (needing : List Nat) (item : WorkItem) :
    item ∈ instrumentWorklist units contractInvMap needing ↔
      ∃ u ∈ units, ∃ c ∈ u.contracts, c.kind ≠ ContractKind.Interface ∧
        ((item = (c, none, (mapGet contractInvMap c.cid).getD []) ∧
          (decide (c.cid ∈ needing) ||
            decide ((((mapGet contractInvMap c.cid).getD []).filter
              isUserFunctionMD).length > 0)) = true) ∨
         ∃ f ∈ c.functions, f.hasBody = true ∧
           funSelected (decide (c.cid ∈ needing)) c f = true ∧
           item = (c, some f, f.fannots)) := by
  simp only [instrumentWorklist, List.mem_flatMap]
  constructor
  · rintro ⟨u, hu, c, hc, hitem2⟩
    by_cases hk : c.kind = ContractKind.Interface
    · rw [if_pos hk] at hitem2
      exact absurd hitem2 (List.not_mem_nil item)
    · rw [if_neg hk] at hitem2
      rcases List.mem_append.mp hitem2 with h | h
      · refine ⟨u, hu, c, hc, hk, Or.inl ?_⟩
        by_cases hcond : (decide (c.cid ∈ needing) ||
            decide ((((mapGet contractInvMap c.cid).getD []).filter
              isUserFunctionMD).length > 0)) = true
        · rw [if_pos (by exact hcond)] at h
          simp only [List.mem_singleton] at h
          exact ⟨h, hcond⟩
        · rw [if_neg (by exact hcond)] at h
          exact absurd h (List.not_mem_nil item)
      · obtain ⟨f, hf, hsome⟩ := List.mem_filterMap.mp h
        obtain ⟨h1, h2, h3⟩ := (funEntry_eq_some _ c f item).mp hsome
        exact ⟨u, hu, c, hc, hk, Or.inr ⟨f, hf, h1, h2, h3⟩⟩
  · rintro ⟨u, hu, c, hc, hk, hcase⟩
    refine ⟨u, hu, c, hc, ?_⟩
    rw [if_neg hk]
    rcases hcase with ⟨heq, hcond⟩ | ⟨f, hf, h1, h2, h3⟩
    · refine List.mem_append.mpr (Or.inl ?_)
      rw [if_pos (by exact hcond)]
      simp [heq]
    · refine List.mem_append.mpr (Or.inr ?_)
      refine List.mem_filterMap.mpr ⟨f, hf, ?_⟩
      exact (funEntry_eq_some _ c f item).mpr ⟨h1, h2, h3⟩

theorem funSelected_true_iff (c : ContractDef) (f : FunDef) :
    funSelected true c f = true ↔
      (f.fannots ≠ [] ∨ (isExternallyVisible f = true ∧ isChangingState f = true ∧
        c.kind = ContractKind.Contract ∧ f.kind = FunKind.Function)) := by
  simp only [funSelected, Bool.or_eq_true, Bool.and_eq_true, decide_eq_true_eq,
    true_and]
  constructor
  · rintro (h | ⟨⟨⟨h1, h2⟩, h3⟩, h4⟩)
    · exact Or.inl (List.ne_nil_of_length_pos h)
    · exact Or.inr ⟨h1, h2, h3, h4⟩
  · rintro (h | ⟨h1, h2, h3, h4⟩)
    · exact Or.inl (List.length_pos.mpr h)
    · exact Or.inr ⟨⟨⟨h1, h2⟩, h3⟩, h4⟩

/-- Claim C6: in a contract of the needing-instrumentation set, a function
with a body is put on the worklist iff it has at least one annotation, or it
is externally visible, state-changing, in a contract of kind `contract`, and
a plain function; functions without a body are never selected. The
well-formedness hypothesis states what the host compiler guarantees:
interface functions have no bodies. -/
theorem instrumentFiles_function_selection (units : List SourceUnitC)
    (contractInvMap : List (Nat × List AnnotationMD)) (needing : List Nat)
    (hwf : ∀ u ∈ units, ∀ c ∈ u.contracts, c.kind = ContractKind.Interface →
      ∀ f ∈ c.functions, f.hasBody = false)
    (u : SourceUnitC) (c : ContractDef) (hu : u ∈ units) (hc : c ∈ u.contracts)
    (hneed : c.cid ∈ needing) (f : FunDef) (hf : f ∈ c.functions) :
    (f.hasBody = true →
      (((c, some f, f.fannots) : WorkItem) ∈
          instrumentWorklist units contractInvMap needing ↔
        (f.fannots ≠ [] ∨ (isExternallyVisible f = true ∧ isChangingState f = true ∧
          c.kind = ContractKind.Contract ∧ f.kind = FunKind.Function)))) ∧
    (f.hasBody = false → ∀ annots : List AnnotationMD,
      ((c, some f, annots) : WorkItem) ∉
        instrumentWorklist units contractInvMap needing) := by
  have hneedd : decide (c.cid ∈ needing) = true := by simp [hneed]
  constructor
  · intro hbody
    rw [mem_instrumentWorklist]
    constructor
    · rintro ⟨u2, _, c2, _, _, hcase⟩
      rcases hcase with ⟨heq, _⟩ | ⟨f2, _, _, hsel, heq⟩
      · exact absurd (congrArg (fun q => q.2.1) heq) (by simp)
      · have hc2 : c = c2 := congrArg (fun q => q.1) heq
        have hf2 : f = f2 := by
          have := congrArg (fun q => q.2.1) heq
          simpa using this
        subst hc2
        subst hf2
        rw [hneedd] at hsel
        exact (funSelected_true_iff c f).mp hsel
    · intro hsel
      have hk : c.kind ≠ ContractKind.Interface := by
        intro hkc
        have := hwf u hu c hc hkc f hf
        rw [hbody] at this
        exact absurd this (by simp)
      refine ⟨u, hu, c, hc, hk, Or.inr ⟨f, hf, hbody, ?_, rfl⟩⟩
      rw [hneedd]
      exact (funSelected_true_iff c f).mpr hsel
  · intro hbody annots hmem
    rw [mem_instrumentWorklist] at hmem
    obtain ⟨u2, _, c2, _, _, hcase⟩ := hmem
    rcases hcase with ⟨heq, _⟩ | ⟨f2, _, hb2, _, heq⟩
    · exact absurd (congrArg (fun q => q.2.1) heq) (by simp)
    · have hf2 : f = f2 := by
        have := congrArg (fun q => q.2.1) heq
        simpa using this
      subst hf2
      rw [hbody] at hb2
      exact absurd hb2 (by simp)

/-- A public, state-changing, plain function with a body and no annotations
(witness fixture). -/
def funW : FunDef :=
  { fname := "inc", hasBody := true, visibility := Visibility.Public,
    mutability := Mutability.NonPayable, kind := FunKind.Function, fannots := [] }

/-- A plain contract containing `funW` (witness fixture). -/
def contractW : ContractDef :=
  { cid := 0, cname := "A", kind := ContractKind.Contract, functions := [funW] }

/-- A source unit containing `contractW` (witness fixture). -/
def unitW : SourceUnitC := { contracts := [contractW] }

/-- Concrete instance of C6: a public state-changing plain function with a
body and no annotations, in a contract needing instrumentation, is selected. -/
theorem instrumentFiles_function_selection_witness :
    ((contractW, some funW, funW.fannots) : WorkItem) ∈
      instrumentWorklist [unitW] [] [0] :=
  ((instrumentFiles_function_selection [unitW] [] [0] (by decide)
      unitW contractW (by decide) (by decide) (by decide) funW (by decide)).1
    rfl).mpr (Or.inr ⟨rfl, rfl, rfl, rfl⟩)

/-- `spec-lang/ast/declarations/annotation` `AnnotationType`. -/
inductive AnnotationType
  | ifSucceeds
  | invariant
  | define
deriving DecidableEq

/-- Modelled from the spec: the target check of the annotation extractor
(`instrumenter/annotations`, not present under `src/`). Spec 4.2 surfaces
target-mismatch errors such as `invariant` on a function and rejects
annotations on free-standing functions; it states no rejection of property
annotations on library (or interface) contract definitions, so an `invariant`
on a library passes extraction. Targets: `Sum.inl kind` a contract definition
of that kind, `Sum.inr free` a function (free-standing when `free`). -/
def specExtractorAccepts : ContractKind ⊕ Bool → AnnotationType → Bool
  | Sum.inl _, AnnotationType.invariant => true
  | Sum.inl _, AnnotationType.define => true
  | Sum.inl _, AnnotationType.ifSucceeds => false
  | Sum.inr free, AnnotationType.ifSucceeds => decide (free = false)
  | Sum.inr free, AnnotationType.define => decide (free = false)
  | Sum.inr _, AnnotationType.invariant => false

/-- A library contract with no functions (failing-input fixture for C7). -/
def libW : ContractDef :=
  { cid := 0, cname := "L", kind := ContractKind.Library, functions := [] }

/-- A source unit containing only `libW`. -/
def libUnitW : SourceUnitC := { contracts := [libW] }

/-- An `invariant` property annotation targeting `libW`. -/
def libAnnW : AnnotationMD :=
  AnnotationMD.property
    ⟨0, AnnTarget.contractTarget ⟨"L", ⟨"a.sol", 0⟩⟩, "L", "", ⟨0, 0⟩, ⟨0, 0⟩⟩

/-- The CHA of a lone library: itself, no parents, no children. -/
def libChaW : CHAm :=
  { contracts := [0], parents := fun _ => [], children := fun _ => [] }

/-- Claim C7, failing input: a library contract `L` carrying one `invariant`
property annotation. The (spec-modelled) extractor accepts the annotation;
`computeContractsNeedingInstr` puts `L` in the needing-instrumentation set
(its CHA component is itself); and `instrumentFiles` pushes `L` as a
contract-level (no-function) worklist entry, on which the internal assertion
guarding that push (`![Library, Interface].includes(kind)`) fires — so the
assertion is reachable, contrary to the claim. -/
theorem instrumentFiles_library_assert_reachable :
    specExtractorAccepts (Sum.inl ContractKind.Library) AnnotationType.invariant
        = true ∧
    contractInvAssertFires [libUnitW] [(0, [libAnnW])]
      (computeContractsNeedingInstr libChaW [(0, [libAnnW])]) = true :=
  ⟨rfl, by decide⟩

/-! ## Claim C2 — `bin/scribble`: `fixNameConflicts` and `fixRenamingErrors` -/

/-- `mapGet` on a cons cell. -/
theorem mapGet_cons {α β : Type} [DecidableEq α] (k0 : α) (v0 : β)
    (rest : List (α × β)) (k : α) :
    mapGet ((k0, v0) :: rest) k = if k0 = k then some v0 else mapGet rest k := by
  by_cases h : k0 = k <;> simp [mapGet, List.find?, h]

/-- A successful `mapGet` exhibits a member entry. -/
theorem mapGet_eq_some_mem {α β : Type} [DecidableEq α] (m : List (α × β))
    (k : α) (v : β) (h : mapGet m k = some v) : (k, v) ∈ m := by
  simp only [mapGet] at h
  cases hf : m.find? (fun p => decide (p.1 = k)) with
  | none => rw [hf] at h; exact absurd h (by simp)
  | some p =>
    rw [hf] at h
    simp only [Option.map_some', Option.some.injEq] at h
    have hm := List.mem_of_find?_eq_some hf
    have hp := List.find?_some hf
    simp only [decide_eq_true_eq] at hp
    have hpe : p = (k, v) := by
      obtain ⟨p1, p2⟩ := p
      simp only at hp h
      rw [hp, h]
    rw [← hpe]
    exact hm

/-- The kinds of top-level definitions `fixNameConflicts` collects
(`TopLevelDef = ContractDefinition | StructDefinition | EnumDefinition`). -/
inductive TLKind
  | contractK
  | structK
  | enumK
deriving DecidableEq

/-- A top-level definition: identity, kind, and (mutable) `name`. -/
structure TLDef where
  tid : Nat
  kind : TLKind
  name : String
deriving DecidableEq

/-- A `SourceUnit` reduced to the three top-level definition lists
`fixNameConflicts` iterates over. -/
structure FlatUnit where
  vContracts : List TLDef
  vStructs : List TLDef
  vEnums : List TLDef
deriving DecidableEq

/-- The traversal order of `fixNameConflicts`: per unit its contracts, then
its structs, then its enums; units in list order. -/
def topLevelDefs (units : List FlatUnit) : List TLDef :=
  units.flatMap (fun u => u.vContracts ++ u.vStructs ++ u.vEnums)

/-- `getOrInit(def.name, nameMap, []).push(def)` on an insertion-ordered
association list. -/
def addToNameMap (m : List (String × List Nat)) (name : String) (i : Nat) :
    List (String × List Nat) :=
  match m with
  | [] => [(name, [i])]
  | (n, ids) :: rest =>
    if n = name then (n, ids ++ [i]) :: rest
    else (n, ids) :: addToNameMap rest name i

/-- The `nameMap` of `fixNameConflicts` after collecting all top-level defs. -/
def buildNameMap (ds : List TLDef) : List (String × List Nat) :=
  ds.foldl (fun m d => addToNameMap m d.name d.tid) []

/-- The renaming loop of `fixNameConflicts`: within each name group the def at
index 0 keeps its name and the def at index `k ≥ 1` becomes
`name + "_" + k` (`def.name += "_" + defIdx`). -/
def renameAssignment (m : List (String × List Nat)) : List (Nat × String) :=
  m.flatMap (fun p =>
    p.2.enum.map (fun q =>
      (q.2, if q.1 = 0 then p.1 else p.1 ++ "_" ++ toString q.1)))

/-- The def-id to new-name table produced by `fixNameConflicts` on `units`. -/
def defNamesOf (units : List FlatUnit) : Nat → Option String :=
  fun i => mapGet (renameAssignment (buildNameMap (topLevelDefs units))) i

/-- The post-`fixNameConflicts` name of def `i` whose original name is
`orig` (every collected def has a table entry; `orig` is the fallback). -/
def newNameOf (units : List FlatUnit) (i : Nat) (orig : String) : String :=
  (defNamesOf units i).getD orig

/-- Rename one definition as `fixNameConflicts` does (in-place mutation made
functional). -/
def renameDef (units : List FlatUnit) (d : TLDef) : TLDef :=
  { d with name := newNameOf units d.tid d.name }

/-- `bin/scribble` `fixNameConflicts` as a function from units to units. -/
def fixNameConflicts (units : List FlatUnit) : List FlatUnit :=
  units.map (fun u =>
    { vContracts := u.vContracts.map (renameDef units),
      vStructs := u.vStructs.map (renameDef units),
      vEnums := u.vEnums.map (renameDef units) })

/-- The kinds of referenced declarations `fixRenamingErrors` treats as
material (its `instanceof` filter:
`Contract | Struct | Enum | Function | VariableDeclaration`). -/
inductive DefKind
  | contractD
  | structD
  | enumD
  | functionD
  | variableD
deriving DecidableEq

/-- The `vScope` of a material referenced declaration. In the host AST the
scope of a contract, struct, enum, function or non-local variable is always a
`SourceUnit` or a `ContractDefinition` (the bare `assert` inside `getFQName`
restates this), so only those two cases occur; a contract-scoped definition
carries the scope contract id and original name. -/
inductive DefScope
  | unitScope
  | contractScope (tid : Nat) (orig : String)
deriving DecidableEq

/-- A material referenced declaration as `fixRenamingErrors` and `getFQName`
inspect it: its kind, its AST id (key of the rename table that models the
in-place `fixNameConflicts` mutation of collected top-level defs), its
original `name`, its `vScope`, and whether `getTypeScope(def)` equals
`getTypeScope(refNode)` at the reference site this value describes. -/
structure RefDef where
  kind : DefKind
  tid : Nat
  name : String
  scope : DefScope
  sameTypeScope : Bool
deriving DecidableEq

/-- The referent of a reference node: a material declaration
(`RefTarget.toDef`), or anything else — builtins, imports, source units,
magic globals, and function-scoped (local/parameter) variables — all of
which `fixRenamingErrors` provably leaves untouched: builtins at the
`vIdentifierType` check, non-material referents at the `instanceof` filter,
and local variables at the `VariableDeclaration` filter, whose `vScope` is a
`FunctionDefinition` so its scope conjunct fails for every node shape. -/
inductive RefTarget
  | toDef (d : RefDef)
  | toOther
deriving DecidableEq

/-- The reference nodes `fixRenamingErrors` selects:
`Identifier` (with its `vIdentifierType === UserDefined` flag),
`UserDefinedTypeName`, and `MemberAccess` (with whether its base expression is
an identifier referring to a `SourceUnit` or `ImportDirective`). -/
inductive RNode
  | ident (name : String) (userDefined : Bool) (target : RefTarget)
  | typeNameRef (name : String) (target : RefTarget)
  | memberAccessRef (memberName : String) (baseIsUnitOrImport : Bool)
      (target : RefTarget)
deriving DecidableEq

/-- The current `name` of a declaration after `fixNameConflicts`: the rename
table entry for collected top-level definitions, the declaration own name for
everything else (the table holds exactly the ids `fixNameConflicts` mutated,
so the fallback models an unmutated `def.name`). -/
def currentNameOf (defName : Nat → Option String) (tid : Nat) (orig : String) :
    String :=
  (defName tid).getD orig

/-- `bin/scribble` `getFQName(def, atUseSite)`: a contract or a unit-scoped
definition yields `def.name`; a contract-scoped definition yields
`scope.name + "." + def.name`, except a function used in its own type scope
(`getTypeScope(def) === getTypeScope(atUseSite)`), which yields `def.name`.
All names are read after the `fixNameConflicts` mutations, hence through
`currentNameOf`. -/
def getFQName (defName : Nat → Option String) (d : RefDef) : String :=
  if d.kind = DefKind.contractD then currentNameOf defName d.tid d.name
  else
    match d.scope with
    | DefScope.unitScope => currentNameOf defName d.tid d.name
    | DefScope.contractScope s sorig =>
      if d.kind = DefKind.functionD ∧ d.sameTypeScope = true then
        currentNameOf defName d.tid d.name
      else
        currentNameOf defName s sorig ++ "." ++ currentNameOf defName d.tid d.name

/-- `bin/scribble` `fixRenamingErrors`, body of the per-node loop. Builtin
identifiers (`vIdentifierType !== UserDefined`) and immaterial referents are
skipped; a `VariableDeclaration` referent is skipped unless the node is a
`MemberAccess` (the scope conjunct of that filter holds for every `RefDef`,
function-scoped variables being `RefTarget.toOther`); a `MemberAccess` whose
base identifier refers to a `SourceUnit` or `ImportDirective` is replaced by
`factory.makeIdentifierFor(def)` — an identifier bearing the definition
current name (`fqDefName` is computed but unused on that path); any other
`MemberAccess` is skipped; an `Identifier`/`UserDefinedTypeName` gets its
`name` overwritten by `getFQName(def, refNode)` when that differs. -/
def fixRenamingErrors (defName : Nat → Option String) : RNode → RNode
  | RNode.ident nm ud t =>
    if ud = false then RNode.ident nm ud t
    else
      match t with
      | RefTarget.toOther => RNode.ident nm ud t
      | RefTarget.toDef d =>
        if d.kind = DefKind.variableD then RNode.ident nm ud t
        else
          if getFQName defName d ≠ nm then
            RNode.ident (getFQName defName d) ud (RefTarget.toDef d)
          else RNode.ident nm ud t
  | RNode.typeNameRef nm t =>
    match t with
    | RefTarget.toOther => RNode.typeNameRef nm t
    | RefTarget.toDef d =>
      if d.kind = DefKind.variableD then RNode.typeNameRef nm t
      else
        if getFQName defName d ≠ nm then
          RNode.typeNameRef (getFQName defName d) (RefTarget.toDef d)
        else RNode.typeNameRef nm t
  | RNode.memberAccessRef mn base t =>
    match t with
    | RefTarget.toOther => RNode.memberAccessRef mn base t
    | RefTarget.toDef d =>
      if base then
        RNode.ident (currentNameOf defName d.tid d.name) true (RefTarget.toDef d)
      else RNode.memberAccessRef mn base t

/-- The group stored under `nm` in a name map (empty when absent). -/
def groupIds (m : List (String × List Nat)) (nm : String) : List Nat :=
  (mapGet m nm).getD []

theorem groupIds_cons (n0 : String) (ids0 : List Nat)
    (rest : List (String × List Nat)) (nm : String) :
    groupIds ((n0, ids0) :: rest) nm =
      if n0 = nm then ids0 else groupIds rest nm := by
  by_cases h : n0 = nm <;> simp [groupIds, mapGet_cons, h]

theorem addToNameMap_cons (n0 : String) (ids0 : List Nat)
    (rest : List (String × List Nat)) (name : String) (i : Nat) :
    addToNameMap ((n0, ids0) :: rest) name i =
      if n0 = name then (n0, ids0 ++ [i]) :: rest
      else (n0, ids0) :: addToNameMap rest name i := rfl

theorem groupIds_addToNameMap (nm : String) :
    ∀ (m : List (String × List Nat)) (n : String) (i : Nat),
      groupIds (addToNameMap m n i) nm =
        if nm = n then groupIds m nm ++ [i] else groupIds m nm := by
  intro m
  induction m with
  | nil =>
    intro n i
    show groupIds [(n, [i])] nm = _
    rw [groupIds_cons]
    by_cases h : nm = n
    · subst h
      simp [groupIds, mapGet]
    · have h2 : ¬ n = nm := fun hc => h hc.symm
      simp [h, h2, groupIds, mapGet]
  | cons p rest ih =>
    intro n i
    obtain ⟨n0, ids0⟩ := p
    rw [addToNameMap_cons]
    by_cases h0 : n0 = n
    · rw [if_pos h0, groupIds_cons, groupIds_cons]
      by_cases h : n0 = nm
      · have hx : nm = n := h.symm.trans h0
        rw [if_pos h, if_pos h, if_pos hx]
      · have hx : ¬ nm = n := fun hc => h (h0.trans hc.symm)
        rw [if_neg h, if_neg h, if_neg hx]
    · rw [if_neg h0, groupIds_cons, groupIds_cons]
      by_cases h : n0 = nm
      · have hn : ¬ nm = n := fun hc => h0 (h.trans hc)
        rw [if_pos h, if_neg hn, if_pos h]
      · rw [if_neg h, if_neg h]
        exact ih n i

theorem groupIds_foldl (nm : String) :
    ∀ (ds : List TLDef) (m : List (String × List Nat)),
      groupIds (ds.foldl (fun m2 d => addToNameMap m2 d.name d.tid) m) nm =
        groupIds m nm ++
          ((ds.filter (fun d => decide (d.name = nm))).map (fun d => d.tid)) := by
  intro ds
  induction ds with
  | nil => intro m; simp
  | cons d rest ih =>
    intro m
    simp only [List.foldl_cons, List.filter_cons]
    rw [ih, groupIds_addToNameMap]
    by_cases h : nm = d.name
    · have h2 : (decide (d.name = nm)) = true := by simp [h.symm]
      rw [if_pos h, h2]
      simp
    · have h2 : (decide (d.name = nm)) = false := by
        have : ¬ d.name = nm := fun hc => h hc.symm
        simp [this]
      rw [if_neg h, h2]
      simp

theorem groupIds_buildNameMap (ds : List TLDef) (nm : String) :
    groupIds (buildNameMap ds) nm =
      (ds.filter (fun d => decide (d.name = nm))).map (fun d => d.tid) := by
  have := groupIds_foldl nm ds []
  simpa [groupIds, mapGet, buildNameMap] using this

theorem keys_addToNameMap :
    ∀ (m : List (String × List Nat)) (n : String) (i : Nat),
      (addToNameMap m n i).map Prod.fst =
        if n ∈ m.map Prod.fst then m.map Prod.fst else m.map Prod.fst ++ [n] := by
  intro m
  induction m with
  | nil => intro n i; simp [addToNameMap]
  | cons p rest ih =>
    intro n i
    obtain ⟨n0, ids0⟩ := p
    by_cases h0 : n0 = n
    · subst h0
      simp [addToNameMap]
    · have h0x : ¬ n = n0 := fun hc => h0 hc.symm
      simp only [addToNameMap, if_neg h0, List.map_cons, ih, List.mem_cons]
      by_cases h : n ∈ rest.map Prod.fst
      · simp [h, h0x]
      · simp [h, h0x]

theorem keysNodup_buildNameMap (ds : List TLDef) :
    ((buildNameMap ds).map Prod.fst).Nodup := by
  suffices h : ∀ (m : List (String × List Nat)), (m.map Prod.fst).Nodup →
      ((ds.foldl (fun m2 d => addToNameMap m2 d.name d.tid) m).map Prod.fst).Nodup by
    exact h [] (by simp)
  induction ds with
  | nil => intro m hm; simpa using hm
  | cons d rest ih =>
    intro m hm
    simp only [List.foldl_cons]
    refine ih _ ?_
    rw [keys_addToNameMap]
    by_cases h : d.name ∈ m.map Prod.fst
    · rw [if_pos h]; exact hm
    · rw [if_neg h, ← List.concat_eq_append]
      exact hm.concat h

theorem buildNameMap_val (ds : List TLDef) (nm : String) (G : List Nat)
    (h : (nm, G) ∈ buildNameMap ds) :
    G = (ds.filter (fun d => decide (d.name = nm))).map (fun d => d.tid) := by
  have hget : mapGet (buildNameMap ds) nm = some G :=
    mapGet_of_mem_of_nodupKeys _ nm G (keysNodup_buildNameMap ds) h
  have hgr := groupIds_buildNameMap ds nm
  rw [groupIds, hget] at hgr
  simpa using hgr

theorem renameAssignment_keys (m : List (String × List Nat)) :
    (renameAssignment m).map Prod.fst = m.flatMap (fun p => p.2) := by
  rw [renameAssignment, List.map_flatMap]
  have h : ∀ p : String × List Nat,
      ((p.2.enum.map (fun q =>
        (q.2, if q.1 = 0 then p.1 else p.1 ++ "_" ++ toString q.1))).map Prod.fst) =
        p.2 := by
    intro p
    rw [List.map_map]
    have : (Prod.fst ∘ fun q : Nat × Nat =>
        ((q.2, if q.1 = 0 then p.1 else p.1 ++ "_" ++ toString q.1) : Nat × String)) =
        Prod.snd := by
      funext q
      rfl
    rw [this, List.enum_map_snd]
  simp only [h]

/-- Duplicate-free concatenation of the groups of a name map with
duplicate-free keys and duplicate-free pairwise-disjoint groups. -/
theorem nodup_flatMap_snd :
    ∀ (m : List (String × List Nat)),
      (∀ p ∈ m, p.2.Nodup) →
      m.Pairwise (fun p q => ∀ x, x ∈ p.2 → x ∉ q.2) →
      (m.flatMap (fun p => p.2)).Nodup := by
  intro m
  induction m with
  | nil => intro _ _; simp
  | cons p rest ih =>
    intro hnd hpw
    simp only [List.flatMap_cons]
    rw [List.nodup_append]
    obtain ⟨hhead, htail⟩ := List.pairwise_cons.mp hpw
    refine ⟨hnd p (List.mem_cons_self p rest), ih (fun q hq => hnd q (List.mem_cons_of_mem p hq)) htail, ?_⟩
    intro x hx hx2
    obtain ⟨q, hq, hxq⟩ := List.mem_flatMap.mp hx2
    exact hhead q hq x hx hxq

theorem renameAssignment_keys_nodup (ds : List TLDef)
    (hids : (ds.map (fun d => d.tid)).Nodup) :
    ((renameAssignment (buildNameMap ds)).map Prod.fst).Nodup := by
  rw [renameAssignment_keys]
  apply nodup_flatMap_snd
  · intro p hp
    obtain ⟨nm, G⟩ := p
    have hG := buildNameMap_val ds nm G hp
    rw [hG]
    exact hids.sublist ((List.filter_sublist ds).map (fun d => d.tid))
  · have hkeys := keysNodup_buildNameMap ds
    have hpw : (buildNameMap ds).Pairwise (fun p q => p.1 ≠ q.1) :=
      List.pairwise_map.mp hkeys
    refine hpw.imp_of_mem ?_
    intro p q hp hq hne x hx1 hx2
    obtain ⟨nm1, G1⟩ := p
    obtain ⟨nm2, G2⟩ := q
    have hG1 := buildNameMap_val ds nm1 G1 hp
    have hG2 := buildNameMap_val ds nm2 G2 hq
    rw [hG1] at hx1
    rw [hG2] at hx2
    obtain ⟨d1, hd1, hxd1⟩ := List.mem_map.mp hx1
    obtain ⟨d2, hd2, hxd2⟩ := List.mem_map.mp hx2
    have hd1m := List.mem_filter.mp hd1
    have hd2m := List.mem_filter.mp hd2
    have heq : d1 = d2 := by
      refine List.inj_on_of_nodup_map hids hd1m.1 hd2m.1 ?_
      simp only [hxd1, hxd2]
    apply hne
    have h1 : d1.name = nm1 := by simpa using hd1m.2
    have h2 : d2.name = nm2 := by simpa using hd2m.2
    simp only []
    rw [← h1, ← h2, heq]

/-- The table entry `fixNameConflicts` creates for the `k`-th def (0-based)
of the name group of `nm`. -/
theorem renameAssignment_lookup (ds : List TLDef)
    (hids : (ds.map (fun d => d.tid)).Nodup) (nm : String) (k : Nat) (d : TLDef)
    (hk : ((ds.filter (fun x => decide (x.name = nm)))[k]? = some d)) :
    mapGet (renameAssignment (buildNameMap ds)) d.tid =
      some (if k = 0 then nm else nm ++ "_" ++ toString k) := by
  have hGk : ((ds.filter (fun x => decide (x.name = nm))).map
      (fun x => x.tid))[k]? = some d.tid := by
    rw [List.getElem?_map, hk, Option.map_some']
  cases hget : mapGet (buildNameMap ds) nm with
  | none =>
    exfalso
    have hgr := groupIds_buildNameMap ds nm
    rw [groupIds, hget] at hgr
    rw [← hgr] at hGk
    simp at hGk
  | some G =>
    have hmem : (nm, G) ∈ buildNameMap ds := mapGet_eq_some_mem _ nm G hget
    have hG : G = (ds.filter (fun x => decide (x.name = nm))).map (fun x => x.tid) :=
      buildNameMap_val ds nm G hmem
    have hGk2 : G[k]? = some d.tid := by rw [hG]; exact hGk
    have hentry : ((d.tid, if k = 0 then nm else nm ++ "_" ++ toString k) :
        Nat × String) ∈ renameAssignment (buildNameMap ds) := by
      simp only [renameAssignment, List.mem_flatMap]
      refine ⟨(nm, G), hmem, ?_⟩
      simp only [List.mem_map]
      exact ⟨(k, d.tid), List.mk_mem_enum_iff_getElem?.mpr hGk2, rfl⟩
    exact mapGet_of_mem_of_nodupKeys _ _ _ (renameAssignment_keys_nodup ds hids) hentry

theorem flatMap_map_units (r : TLDef → TLDef) :
    ∀ us : List FlatUnit,
      ((us.map (fun u =>
          ({ vContracts := u.vContracts.map r, vStructs := u.vStructs.map r,
             vEnums := u.vEnums.map r } : FlatUnit))).flatMap
        (fun u => u.vContracts ++ u.vStructs ++ u.vEnums)) =
      (us.flatMap (fun u => u.vContracts ++ u.vStructs ++ u.vEnums)).map r := by
  intro us
  induction us with
  | nil => rfl
  | cons u us2 ih =>
    simp only [List.map_cons, List.flatMap_cons, List.map_append, ih]

theorem topLevelDefs_fixNameConflicts (units : List FlatUnit) :
    topLevelDefs (fixNameConflicts units) =
      (topLevelDefs units).map (renameDef units) := by
  simp only [topLevelDefs, fixNameConflicts]
  exact flatMap_map_units (renameDef units) units

/-- Claim C2: after `fixNameConflicts`, within each top-level name group (in
traversal order) the first definition keeps its name and the `k`-th colliding
one (0-based `k ≥ 1`) is renamed `name_k`. `fixRenamingErrors` then (i)
rewrites every user-defined identifier and type name with a material
non-variable referent to that referent fully-qualified name — for definitions
in the rename table (top-level contracts, structs, enums) the current,
possibly renamed, name; for free functions their own name, undoing import
aliases; for contract members the (renamed) scope-qualified name unless a
same-type-scope function; (ii) replaces every member access whose base is a
source unit or import by a direct identifier bearing the referent current
name; and (iii) leaves every skip case unchanged: builtin identifiers,
immaterial referents, variable referents outside member accesses, and member
accesses with a non-unit base. The hypothesis is that distinct top-level
definitions are distinct objects (duplicate-free ids). -/
theorem fixNameConflicts_fixRenamingErrors_correct (units : List FlatUnit)
    (hids : ((topLevelDefs units).map (fun d => d.tid)).Nodup) :
    (topLevelDefs (fixNameConflicts units) =
      (topLevelDefs units).map (renameDef units)) ∧
    (∀ (nm : String) (k : Nat) (d : TLDef),
      ((topLevelDefs units).filter (fun x => decide (x.name = nm)))[k]? = some d →
      newNameOf units d.tid d.name =
        (if k = 0 then nm else nm ++ "_" ++ toString k)) ∧
    (∀ (d : RefDef) (nm : String), d.kind ≠ DefKind.variableD →
      (fixRenamingErrors (defNamesOf units)
          (RNode.ident nm true (RefTarget.toDef d)) =
        RNode.ident (getFQName (defNamesOf units) d) true (RefTarget.toDef d)) ∧
      (fixRenamingErrors (defNamesOf units)
          (RNode.typeNameRef nm (RefTarget.toDef d)) =
        RNode.typeNameRef (getFQName (defNamesOf units) d) (RefTarget.toDef d))) ∧
    (∀ (d : RefDef) (mn : String),
      fixRenamingErrors (defNamesOf units)
          (RNode.memberAccessRef mn true (RefTarget.toDef d)) =
        RNode.ident (newNameOf units d.tid d.name) true (RefTarget.toDef d)) ∧
    (∀ (d : RefDef) (fq : String),
      (d.kind = DefKind.contractD ∨ d.scope = DefScope.unitScope) →
      defNamesOf units d.tid = some fq →
      getFQName (defNamesOf units) d = fq) ∧
    (∀ (d : RefDef),
      (d.kind = DefKind.contractD ∨ d.scope = DefScope.unitScope ∨
        (d.kind = DefKind.functionD ∧ d.sameTypeScope = true)) →
      defNamesOf units d.tid = none →
      getFQName (defNamesOf units) d = d.name) ∧
    (∀ (d : RefDef) (s : Nat) (sorig cs : String),
      d.scope = DefScope.contractScope s sorig →
      d.kind ≠ DefKind.contractD →
      ¬ (d.kind = DefKind.functionD ∧ d.sameTypeScope = true) →
      defNamesOf units d.tid = none → defNamesOf units s = some cs →
      getFQName (defNamesOf units) d = cs ++ "." ++ d.name) ∧
    (∀ (nm mn : String) (t : RefTarget) (ud : Bool) (d : RefDef),
      (fixRenamingErrors (defNamesOf units) (RNode.ident nm false t) =
        RNode.ident nm false t) ∧
      (fixRenamingErrors (defNamesOf units) (RNode.ident nm ud RefTarget.toOther) =
        RNode.ident nm ud RefTarget.toOther) ∧
      (fixRenamingErrors (defNamesOf units) (RNode.typeNameRef nm RefTarget.toOther) =
        RNode.typeNameRef nm RefTarget.toOther) ∧
      (fixRenamingErrors (defNamesOf units) (RNode.memberAccessRef mn false t) =
        RNode.memberAccessRef mn false t) ∧
      (fixRenamingErrors (defNamesOf units)
          (RNode.memberAccessRef mn true RefTarget.toOther) =
        RNode.memberAccessRef mn true RefTarget.toOther) ∧
      (d.kind = DefKind.variableD →
        (fixRenamingErrors (defNamesOf units)
            (RNode.ident nm ud (RefTarget.toDef d)) =
          RNode.ident nm ud (RefTarget.toDef d)) ∧
        (fixRenamingErrors (defNamesOf units)
            (RNode.typeNameRef nm (RefTarget.toDef d)) =
          RNode.typeNameRef nm (RefTarget.toDef d)))) := by
  refine ⟨topLevelDefs_fixNameConflicts units, ?_, ?_, ?_, ?_, ?_, ?_, ?_⟩
  · intro nm k d hk
    have hlook := renameAssignment_lookup (topLevelDefs units) hids nm k d hk
    rw [newNameOf, defNamesOf, hlook, Option.getD_some]
  · intro d nm hdv
    constructor
    · by_cases h : getFQName (defNamesOf units) d = nm
      · subst h
        simp [fixRenamingErrors, hdv]
      · simp [fixRenamingErrors, hdv, h]
    · by_cases h : getFQName (defNamesOf units) d = nm
      · subst h
        simp [fixRenamingErrors, hdv]
      · simp [fixRenamingErrors, hdv, h]
  · intro d mn
    rfl
  · intro d fq hcase hfq
    rcases hcase with hk | hs
    · simp [getFQName, hk, currentNameOf, hfq]
    · by_cases hk : d.kind = DefKind.contractD
      · simp [getFQName, hk, currentNameOf, hfq]
      · simp [getFQName, hk, hs, currentNameOf, hfq]
  · intro d hcase hnone
    rcases hcase with hk | hs | hfn
    · simp [getFQName, hk, currentNameOf, hnone]
    · by_cases hk : d.kind = DefKind.contractD
      · simp [getFQName, hk, currentNameOf, hnone]
      · simp [getFQName, hk, hs, currentNameOf, hnone]
    · by_cases hk : d.kind = DefKind.contractD
      · simp [getFQName, hk, currentNameOf, hnone]
      · cases hscope : d.scope with
        | unitScope => simp [getFQName, hk, hscope, currentNameOf, hnone]
        | contractScope s sorig =>
          simp [getFQName, hk, hscope, hfn.1, hfn.2, currentNameOf, hnone]
  · intro d s sorig cs hscope hkc hnfn hnone hcs
    simp [getFQName, hkc, hscope, hnfn, currentNameOf, hnone, hcs]
  · intro nm mn t ud d
    refine ⟨?_, ?_, ?_, ?_, ?_, ?_⟩
    · simp [fixRenamingErrors]
    · cases ud <;> simp [fixRenamingErrors]
    · simp [fixRenamingErrors]
    · cases t with
      | toOther => rfl
      | toDef d2 => simp [fixRenamingErrors]
    · rfl
    · intro hv
      constructor
      · cases ud <;> simp [fixRenamingErrors, hv]
      · simp [fixRenamingErrors, hv]

/-- Two units each declaring a contract named `C` (witness fixture for C2,
scenario S3 of the spec). -/
def unitsC2W : List FlatUnit :=
  [{ vContracts := [⟨0, TLKind.contractK, "C"⟩], vStructs := [], vEnums := [] },
   { vContracts := [⟨1, TLKind.contractK, "C"⟩], vStructs := [], vEnums := [] }]

/-- Witness referent for C2: the second contract `C` (id 1) of `unitsC2W`. -/
def refC2W : RefDef :=
  { kind := DefKind.contractD, tid := 1, name := "C",
    scope := DefScope.unitScope, sameTypeScope := false }

/-- Witness referent for C2: a free function `f` (AST id 7, not a collected
top-level def) referenced through an `import { f as g }` alias. -/
def refF2W : RefDef :=
  { kind := DefKind.functionD, tid := 7, name := "f",
    scope := DefScope.unitScope, sameTypeScope := false }

/-- Concrete instance of C2: the second `C` is renamed `C_1`; an identifier
referring to it is rewritten from `C` to `C_1`; an aliased identifier `g`
referring to the free function `f` is rewritten back to `f`; and a unit-based
member access to `f` is replaced by a direct identifier `f`. -/
theorem fixNameConflicts_fixRenamingErrors_correct_witness :
    newNameOf unitsC2W 1 "C" = "C_1" ∧
    fixRenamingErrors (defNamesOf unitsC2W)
        (RNode.ident "C" true (RefTarget.toDef refC2W)) =
      RNode.ident "C_1" true (RefTarget.toDef refC2W) ∧
    fixRenamingErrors (defNamesOf unitsC2W)
        (RNode.ident "g" true (RefTarget.toDef refF2W)) =
      RNode.ident "f" true (RefTarget.toDef refF2W) ∧
    fixRenamingErrors (defNamesOf unitsC2W)
        (RNode.memberAccessRef "f" true (RefTarget.toDef refF2W)) =
      RNode.ident "f" true (RefTarget.toDef refF2W) :=
  ⟨((fixNameConflicts_fixRenamingErrors_correct unitsC2W (by decide)).2.1
      "C" 1 ⟨1, TLKind.contractK, "C"⟩ (by decide)).trans (by decide),
   (((fixNameConflicts_fixRenamingErrors_correct unitsC2W (by decide)).2.2.1
      refC2W "C" (by decide)).1).trans (by decide),
   (((fixNameConflicts_fixRenamingErrors_correct unitsC2W (by decide)).2.2.1
      refF2W "g" (by decide)).1).trans (by decide),
   ((fixNameConflicts_fixRenamingErrors_correct unitsC2W (by decide)).2.2.2.1
      refF2W "f").trans (by decide)⟩

/-! ## Claim C3 — `bin/scribble`: `topoSort` -/

/-- A `SourceUnit` as `topoSort` sees it: its absolute path and the absolute
paths of the units its import directives resolve to
(`imp.vSourceUnit.absolutePath`). -/
structure SUnit where
  absolutePath : String
  importPaths : List String
deriving DecidableEq

/-- `new Map(units.map(u => [u.absolutePath, u]))`: later entries overwrite
earlier ones with the same path. -/
def pathMapOf (units : List SUnit) : List (String × SUnit) :=
  units.foldl (fun m u => mapSet m u.absolutePath u) []

/-- The importee `Set` of one unit: resolve each import path through the path
map (the `assert(importee !== undefined)` is `none`) and add it if new. -/
def importees (pm : List (String × SUnit)) :
    List String → List SUnit → Option (List SUnit)
  | [], acc => some acc
  | p :: rest, acc =>
    match mapGet pm p with
    | none => none
    | some w => importees pm rest (if w ∈ acc then acc else acc ++ [w])

/-- The per-unit importee lists of the setup loop, in unit order. -/
def importPairs (pm : List (String × SUnit)) :
    List SUnit → Option (List (SUnit × List SUnit))
  | [] => some []
  | u :: rest =>
    match importees pm u.importPaths [], importPairs pm rest with
    | some l, some ps => some ((u, l) :: ps)
    | _, _ => none

/-- `importersM`: during the setup loop every unit adds itself to the
importer set of each of its importees, so the finished set under `v` holds
exactly the units whose importee set contains `v`, in unit order. -/
def importersOf (imps : List (SUnit × List SUnit)) (v : SUnit) : List SUnit :=
  (imps.filter (fun p => decide (v ∈ p.2))).map Prod.fst

/-- The importer loop body over `importers cur`: decrement each importer's
count (`assert(newNImports >= 0)` is `none`), enqueue those reaching zero. -/
def processImporters :
    List SUnit → List SUnit → List (SUnit × Int) →
      Option (List SUnit × List (SUnit × Int))
  | [], q, counts => some (q, counts)
  | imp :: rest, q, counts =>
    let newN := (mapGet counts imp).getD 0 - 1
    if newN < 0 then none
    else
      processImporters rest (if newN = 0 then q ++ [imp] else q)
        (mapSet counts imp newN)

/-- The `while (q.length > 0)` loop of `topoSort` (`q.shift()` pops the
front, `q.push` appends; the fuel supplied by `topoSortLoop` suffices since
every unit is enqueued at most once). -/
def kahnAux (importers : SUnit → List SUnit) :
    Nat → List SUnit → List (SUnit × Int) → List SUnit → Option (List SUnit)
  | _, [], _, sorted => some sorted
  | 0, _ :: _, _, sorted => some sorted
  | fuel + 1, cur :: rest, counts, sorted =>
    match processImporters (importers cur) rest counts with
    | none => none
    | some (q2, counts2) => kahnAux importers fuel q2 counts2 (sorted ++ [cur])

/-- `topoSort` up to (but not including) its final length assertion. -/
def topoSortLoop (units : List SUnit) : Option (List SUnit) :=
  match importPairs (pathMapOf units) units with
  | none => none
  | some imps =>
    let counts0 := imps.map (fun p => (p.1, (p.2.length : Int)))
    let q0 := units.filter (fun u => decide (mapGet counts0 u = some 0))
    kahnAux (importersOf imps) units.length q0 counts0 []

/-- `bin/scribble` `topoSort`: run the loop, then
`assert(sorted.length === units.length)` (`none` when the assertion fires). -/
def topoSort (units : List SUnit) : Option (List SUnit) :=
  match topoSortLoop units with
  | none => none
  | some sorted => if sorted.length = units.length then some sorted else none

/-- `u` imports `v`: one of `u`'s import directives points at `v`'s path. -/
def Imports (u v : SUnit) : Prop := v.absolutePath ∈ u.importPaths

/-- The import graph restricted to the unit list has no cycle. -/
def AcyclicImports (units : List SUnit) : Prop :=
  ¬ ∃ z ∈ units, Relation.TransGen (fun a b => b ∈ units ∧ Imports a b) z z

theorem mem_mapSet {α β : Type} [DecidableEq α] :
    ∀ (m : List (α × β)) (k : α) (v : β) (x : α × β),
      x ∈ mapSet m k v → x = (k, v) ∨ x ∈ m := by
  intro m
  induction m with
  | nil =>
    intro k v x hx
    simp only [mapSet, List.mem_singleton] at hx
    exact Or.inl hx
  | cons p rest ih =>
    intro k v x hx
    obtain ⟨k0, v0⟩ := p
    by_cases h : k0 = k
    · rw [mapSet, if_pos h] at hx
      rcases List.mem_cons.mp hx with rfl | hx2
      · exact Or.inl rfl
      · exact Or.inr (List.mem_cons_of_mem _ hx2)
    · rw [mapSet, if_neg h] at hx
      rcases List.mem_cons.mp hx with rfl | hx2
      · exact Or.inr (List.mem_cons_self _ _)
      · rcases ih k v x hx2 with h2 | h2
        · exact Or.inl h2
        · exact Or.inr (List.mem_cons_of_mem _ h2)

theorem pathMapOf_entries (units : List SUnit) :
    ∀ x ∈ pathMapOf units, x.2 ∈ units ∧ x.2.absolutePath = x.1 := by
  suffices h : ∀ (us : List SUnit) (m : List (String × SUnit)),
      (∀ x ∈ m, x.2 ∈ units ∧ x.2.absolutePath = x.1) →
      (∀ u ∈ us, u ∈ units) →
      ∀ x ∈ us.foldl (fun m2 u => mapSet m2 u.absolutePath u) m,
        x.2 ∈ units ∧ x.2.absolutePath = x.1 by
    intro x hx
    exact h units [] (by simp) (fun u hu => hu) x hx
  intro us
  induction us with
  | nil => intro m hm _ x hx; exact hm x hx
  | cons u rest ih =>
    intro m hm hus x hx
    simp only [List.foldl_cons] at hx
    refine ih (mapSet m u.absolutePath u) ?_ (fun w hw => hus w (List.mem_cons_of_mem u hw)) x hx
    intro y hy
    rcases mem_mapSet m u.absolutePath u y hy with rfl | hy2
    · exact ⟨hus u (List.mem_cons_self u rest), rfl⟩
    · exact hm y hy2

theorem foldl_mapSet_get_notin (w : SUnit) :
    ∀ (us : List SUnit) (m : List (String × SUnit)),
      w.absolutePath ∉ us.map (fun u => u.absolutePath) →
      mapGet (us.foldl (fun m2 u => mapSet m2 u.absolutePath u) m) w.absolutePath =
        mapGet m w.absolutePath := by
  intro us
  induction us with
  | nil => intro m _; rfl
  | cons u rest ih =>
    intro m hnp
    simp only [List.map_cons, List.mem_cons] at hnp
    push_neg at hnp
    simp only [List.foldl_cons]
    rw [ih _ hnp.2]
    exact mapGet_mapSet_other m u.absolutePath w.absolutePath u (Ne.symm hnp.1)

theorem pathMapOf_get (units : List SUnit)
    (hpaths : (units.map (fun u => u.absolutePath)).Nodup) :
    ∀ w ∈ units, mapGet (pathMapOf units) w.absolutePath = some w := by
  suffices h : ∀ (us : List SUnit) (m : List (String × SUnit)),
      (us.map (fun u => u.absolutePath)).Nodup →
      ∀ w ∈ us, mapGet (us.foldl (fun m2 u => mapSet m2 u.absolutePath u) m)
        w.absolutePath = some w by
    intro w hw
    exact h units [] hpaths w hw
  intro us
  induction us with
  | nil => intro m _ w hw; simp at hw
  | cons u rest ih =>
    intro m hnd w hw
    simp only [List.map_cons, List.nodup_cons] at hnd
    simp only [List.foldl_cons]
    rcases List.mem_cons.mp hw with rfl | hw2
    · rw [foldl_mapSet_get_notin w rest _ hnd.1]
      exact mapGet_mapSet_self m w.absolutePath w
    · exact ih _ hnd.2 w hw2

theorem path_inj (units : List SUnit)
    (hpaths : (units.map (fun u => u.absolutePath)).Nodup) :
    ∀ u ∈ units, ∀ v ∈ units, u.absolutePath = v.absolutePath → u = v := by
  intro u hu v hv h
  exact List.inj_on_of_nodup_map hpaths hu hv h

theorem importees_spec (units : List SUnit)
    (hpaths : (units.map (fun u => u.absolutePath)).Nodup) :
    ∀ (ps : List String), (∀ p ∈ ps, ∃ w ∈ units, w.absolutePath = p) →
      ∀ acc : List SUnit, (∀ x ∈ acc, x ∈ units) → acc.Nodup →
        ∃ l, importees (pathMapOf units) ps acc = some l ∧ l.Nodup ∧
          (∀ x, x ∈ l ↔ x ∈ acc ∨ (x ∈ units ∧ x.absolutePath ∈ ps)) := by
  intro ps
  induction ps with
  | nil =>
    intro _ acc hacc hnd
    exact ⟨acc, rfl, hnd, fun x => by simp [hacc x]⟩
  | cons p rest ih =>
    intro hres acc hacc hnd
    obtain ⟨w0, hw0, hw0p⟩ := hres p (List.mem_cons_self p rest)
    have hget : mapGet (pathMapOf units) p = some w0 := by
      rw [← hw0p]
      exact pathMapOf_get units hpaths w0 hw0
    have hres2 : ∀ p2 ∈ rest, ∃ w ∈ units, w.absolutePath = p2 :=
      fun p2 hp2 => hres p2 (List.mem_cons_of_mem p hp2)
    by_cases hmem : w0 ∈ acc
    · obtain ⟨l, hl, hlnd, hlm⟩ := ih hres2 acc hacc hnd
      refine ⟨l, ?_, hlnd, ?_⟩
      · show importees (pathMapOf units) (p :: rest) acc = some l
        rw [importees, hget]
        simp only [if_pos hmem]
        exact hl
      · intro x
        rw [hlm x]
        constructor
        · rintro (h | ⟨h1, h2⟩)
          · exact Or.inl h
          · exact Or.inr ⟨h1, List.mem_cons_of_mem p h2⟩
        · rintro (h | ⟨h1, h2⟩)
          · exact Or.inl h
          · rcases List.mem_cons.mp h2 with h3 | h3
            · have : x = w0 := path_inj units hpaths x h1 w0 hw0 (by rw [h3, hw0p])
              exact Or.inl (this ▸ hmem)
            · exact Or.inr ⟨h1, h3⟩
    · have hacc2 : ∀ x ∈ acc ++ [w0], x ∈ units := by
        intro x hx
        rcases List.mem_append.mp hx with h | h
        · exact hacc x h
        · rw [List.mem_singleton.mp h]; exact hw0
      have hnd2 : (acc ++ [w0]).Nodup := by
        rw [← List.concat_eq_append]
        exact hnd.concat hmem
      obtain ⟨l, hl, hlnd, hlm⟩ := ih hres2 (acc ++ [w0]) hacc2 hnd2
      refine ⟨l, ?_, hlnd, ?_⟩
      · show importees (pathMapOf units) (p :: rest) acc = some l
        rw [importees, hget]
        simp only [if_neg hmem]
        exact hl
      · intro x
        rw [hlm x]
        constructor
        · rintro (h | ⟨h1, h2⟩)
          · rcases List.mem_append.mp h with h3 | h3
            · exact Or.inl h3
            · rw [List.mem_singleton.mp h3]
              exact Or.inr ⟨hw0, by rw [hw0p]; exact List.mem_cons_self p rest⟩
          · exact Or.inr ⟨h1, List.mem_cons_of_mem p h2⟩
        · rintro (h | ⟨h1, h2⟩)
          · exact Or.inl (List.mem_append.mpr (Or.inl h))
          · rcases List.mem_cons.mp h2 with h3 | h3
            · have : x = w0 := path_inj units hpaths x h1 w0 hw0 (by rw [h3, hw0p])
              exact Or.inl (List.mem_append.mpr (Or.inr (by simp [this])))
            · exact Or.inr ⟨h1, h3⟩

theorem importPairs_spec (units : List SUnit)
    (hpaths : (units.map (fun u => u.absolutePath)).Nodup)
    (hres : ∀ u ∈ units, ∀ p ∈ u.importPaths, ∃ w ∈ units, w.absolutePath = p) :
    ∀ us : List SUnit, (∀ u ∈ us, u ∈ units) →
      ∃ imps, importPairs (pathMapOf units) us = some imps ∧
        imps.map Prod.fst = us ∧
        ∀ pr ∈ imps, pr.2.Nodup ∧
          (∀ x, x ∈ pr.2 ↔ x ∈ units ∧ Imports pr.1 x) := by
  intro us
  induction us with
  | nil => intro _; exact ⟨[], rfl, rfl, by simp⟩
  | cons u rest ih =>
    intro hus
    have hu : u ∈ units := hus u (List.mem_cons_self u rest)
    obtain ⟨l, hl, hlnd, hlm⟩ := importees_spec units hpaths u.importPaths
      (hres u hu) [] (by simp) (by simp)
    obtain ⟨imps, himps, hkeys, hmem⟩ := ih (fun w hw => hus w (List.mem_cons_of_mem u hw))
    refine ⟨(u, l) :: imps, ?_, by simp [hkeys], ?_⟩
    · show importPairs (pathMapOf units) (u :: rest) = _
      rw [importPairs, hl, himps]
    · intro pr hpr
      rcases List.mem_cons.mp hpr with rfl | hpr2
      · refine ⟨hlnd, ?_⟩
        intro x
        rw [hlm x]
        simp [Imports]
      · exact hmem pr hpr2

theorem importersOf_mem (imps : List (SUnit × List SUnit)) (v u : SUnit) :
    u ∈ importersOf imps v ↔ ∃ l, (u, l) ∈ imps ∧ v ∈ l := by
  simp only [importersOf, List.mem_map, List.mem_filter]
  constructor
  · rintro ⟨⟨u2, l⟩, ⟨hmem, hv⟩, rfl⟩
    exact ⟨l, hmem, by simpa using hv⟩
  · rintro ⟨l, hmem, hv⟩
    exact ⟨(u, l), ⟨hmem, by simpa using hv⟩, rfl⟩

theorem importersOf_nodup (imps : List (SUnit × List SUnit))
    (hkeys : (imps.map Prod.fst).Nodup) (v : SUnit) :
    (importersOf imps v).Nodup :=
  hkeys.sublist ((List.filter_sublist imps).map Prod.fst)

theorem processImporters_spec :
    ∀ (imps : List SUnit) (q : List SUnit) (counts : List (SUnit × Int)),
      (∀ imp ∈ imps, ∃ n : Int, mapGet counts imp = some n ∧ 1 ≤ n) →
      imps.Nodup →
      ∃ q2 counts2, processImporters imps q counts = some (q2, counts2) ∧
        (∀ u, mapGet counts2 u =
          if u ∈ imps then (mapGet counts u).map (fun n => n - 1)
          else mapGet counts u) ∧
        q2 = q ++ imps.filter (fun u => decide (mapGet counts u = some 1)) := by
  intro imps
  induction imps with
  | nil =>
    intro q counts _ _
    exact ⟨q, counts, rfl, fun u => by simp, by simp⟩
  | cons imp rest ih =>
    intro q counts hc hnd
    obtain ⟨n, hn, hn1⟩ := hc imp (List.mem_cons_self imp rest)
    simp only [List.nodup_cons] at hnd
    have hlt : ¬ ((mapGet counts imp).getD 0 - 1 < 0) := by
      rw [hn]
      simp only [Option.getD_some]
      omega
    have hc2 : ∀ imp2 ∈ rest, ∃ m : Int,
        mapGet (mapSet counts imp ((mapGet counts imp).getD 0 - 1)) imp2 = some m ∧
          1 ≤ m := by
      intro imp2 h2
      have hne : imp ≠ imp2 := fun hcx => hnd.1 (hcx ▸ h2)
      rw [mapGet_mapSet_other counts imp imp2 _ hne]
      exact hc imp2 (List.mem_cons_of_mem imp h2)
    obtain ⟨q2, counts2, hstep, hcounts, hq2⟩ := ih
      (if (mapGet counts imp).getD 0 - 1 = 0 then q ++ [imp] else q)
      (mapSet counts imp ((mapGet counts imp).getD 0 - 1)) hc2 hnd.2
    refine ⟨q2, counts2, ?_, ?_, ?_⟩
    · show processImporters (imp :: rest) q counts = _
      rw [processImporters]
      simp only [if_neg hlt]
      exact hstep
    · intro u
      rw [hcounts u]
      by_cases hu : u ∈ rest
      · have hune : imp ≠ u := fun hcx => hnd.1 (hcx ▸ hu)
        rw [if_pos hu, if_pos (List.mem_cons_of_mem imp hu),
          mapGet_mapSet_other counts imp u _ hune]
      · rw [if_neg hu]
        by_cases hui : u = imp
        · subst hui
          rw [if_pos (List.mem_cons_self u rest), mapGet_mapSet_self, hn]
          simp
        · have : u ∉ imp :: rest := by
            simp [List.mem_cons, hui, hu]
          rw [if_neg this, mapGet_mapSet_other counts imp u _ (fun hcx => hui hcx.symm)]
    · rw [hq2]
      have hfeq : rest.filter (fun u => decide
          (mapGet (mapSet counts imp ((mapGet counts imp).getD 0 - 1)) u = some 1)) =
          rest.filter (fun u => decide (mapGet counts u = some 1)) := by
        apply List.filter_congr
        intro x hx
        have hne : imp ≠ x := fun hcx => hnd.1 (hcx ▸ hx)
        rw [mapGet_mapSet_other counts imp x _ hne]
      rw [hfeq, List.filter_cons]
      by_cases h1 : (mapGet counts imp).getD 0 - 1 = 0
      · have hd : (decide (mapGet counts imp = some 1)) = true := by
          rw [hn] at h1 ⊢
          simp only [Option.getD_some] at h1
          simp only [decide_eq_true_eq, Option.some.injEq]
          omega
        rw [if_pos h1, hd]
        simp
      · have hd : (decide (mapGet counts imp = some 1)) = false := by
          rw [hn] at h1 ⊢
          simp only [Option.getD_some] at h1
          simp only [decide_eq_false_iff_not, Option.some.injEq]
          omega
        rw [if_neg h1, hd]
        simp

/-- A finite set in which every element has a successor contains a cycle. -/
theorem exists_cycle {α : Type} [DecidableEq α] (S : List α) (E : α → α → Prop)
    (hne : S ≠ []) (hsucc : ∀ u ∈ S, ∃ v ∈ S, E u v) :
    ∃ z ∈ S, Relation.TransGen E z z := by
  classical
  obtain ⟨u0, hu0⟩ := List.exists_mem_of_ne_nil S hne
  choose nxt hnxt hE using hsucc
  let walk : Nat → {x // x ∈ S} := fun n =>
    Nat.rec (motive := fun _ => {x // x ∈ S}) ⟨u0, hu0⟩
      (fun _ p => ⟨nxt p.1 p.2, hnxt p.1 p.2⟩) n
  have hstep : ∀ n, E (walk n).1 (walk (n + 1)).1 := fun n => hE (walk n).1 (walk n).2
  have hchain : ∀ i j : Nat, i < j → Relation.TransGen E (walk i).1 (walk j).1 := by
    intro i j hij
    induction j with
    | zero => omega
    | succ j2 ih =>
      by_cases h : i = j2
      · subst h
        exact Relation.TransGen.single (hstep i)
      · have hij2 : i < j2 := by omega
        exact Relation.TransGen.tail (ih hij2) (hstep j2)
  have hcard : Fintype.card (Fin S.length) < Fintype.card (Fin (S.length + 1)) := by
    simp
  obtain ⟨a, b, hab, heq⟩ := Fintype.exists_ne_map_eq_of_card_lt
    (fun i : Fin (S.length + 1) =>
      (⟨S.indexOf (walk i.1).1, List.indexOf_lt_length.mpr (walk i.1).2⟩ : Fin S.length))
    hcard
  have heq2 : (walk a.1).1 = (walk b.1).1 := by
    have h1 : S.indexOf (walk a.1).1 = S.indexOf (walk b.1).1 := congrArg Fin.val heq
    exact (List.indexOf_inj (walk a.1).2 (walk b.1).2).mp h1
  rcases Nat.lt_or_ge a.1 b.1 with h | h
  · have hc := hchain a.1 b.1 h
    rw [← heq2] at hc
    exact ⟨(walk a.1).1, (walk a.1).2, hc⟩
  · have hba : b.1 < a.1 := by
      rcases Nat.lt_or_ge b.1 a.1 with h2 | h2
      · exact h2
      · exfalso
        apply hab
        apply Fin.ext
        omega
    have hc := hchain b.1 a.1 hba
    rw [heq2] at hc
    exact ⟨(walk b.1).1, (walk b.1).2, hc⟩

theorem kahnAux_nil (F : SUnit → List SUnit) (fuel : Nat)
    (counts : List (SUnit × Int)) (sorted : List SUnit) :
    kahnAux F fuel [] counts sorted = some sorted := by
  cases fuel <;> rfl

theorem kahnAux_cons (F : SUnit → List SUnit) (fuel : Nat) (cur : SUnit)
    (rest : List SUnit) (counts : List (SUnit × Int)) (sorted : List SUnit) :
    kahnAux F (fuel + 1) (cur :: rest) counts sorted =
      match processImporters (F cur) rest counts with
      | none => none
      | some (q2, counts2) => kahnAux F fuel q2 counts2 (sorted ++ [cur]) := rfl

theorem filter_out_length {α : Type} [DecidableEq α] :
    ∀ (l : List α), l.Nodup → ∀ (s : List α) (c : α), c ∈ l → c ∉ s →
      (l.filter (fun v => decide (v ∉ s ++ [c]))).length + 1 =
        (l.filter (fun v => decide (v ∉ s))).length := by
  intro l
  induction l with
  | nil => intro _ s c hc; simp at hc
  | cons a as ih =>
    intro hnd s c hc hcs
    simp only [List.nodup_cons] at hnd
    simp only [List.filter_cons]
    rcases List.mem_cons.mp hc with rfl | hcas
    · have p1 : (decide (c ∉ s ++ [c])) = false := by simp
      have p2 : (decide (c ∉ s)) = true := by simpa using hcs
      rw [p1, p2]
      have hcong : as.filter (fun v => decide (v ∉ s ++ [c])) =
          as.filter (fun v => decide (v ∉ s)) := by
        apply List.filter_congr
        intro x hx
        have hxa : x ≠ c := fun h => hnd.1 (h ▸ hx)
        apply decide_eq_decide.mpr
        simp [List.mem_append, hxa]
      rw [hcong]
      simp
    · have hac : a ≠ c := fun h => hnd.1 (h ▸ hcas)
      have heq : (decide (a ∉ s ++ [c])) = (decide (a ∉ s)) := by
        apply decide_eq_decide.mpr
        simp [List.mem_append, hac]
      rw [heq]
      by_cases has : a ∈ s
      · have p1 : (decide (a ∉ s)) = false := by simpa using has
        rw [p1, if_neg Bool.false_ne_true, if_neg Bool.false_ne_true]
        exact ih hnd.2 s c hcas hcs
      · have p1 : (decide (a ∉ s)) = true := by simpa using has
        rw [p1]
        simp only [cond_true, if_true, List.length_cons]
        have := ih hnd.2 s c hcas hcs
        omega

theorem filter_out_of_notin {α : Type} [DecidableEq α] (l s : List α) (c : α)
    (hc : c ∉ l) :
    l.filter (fun v => decide (v ∉ s ++ [c])) =
      l.filter (fun v => decide (v ∉ s)) := by
  apply List.filter_congr
  intro x hx
  have hxc : x ≠ c := fun h => hc (h ▸ hx)
  apply decide_eq_decide.mpr
  simp [List.mem_append, hxc]

theorem filter_eq_singleton_of {α : Type} [DecidableEq α] :
    ∀ (l : List α), l.Nodup → ∀ (s : List α) (c : α), c ∈ l → c ∉ s →
      (∀ v ∈ l, v ≠ c → v ∈ s) →
      l.filter (fun v => decide (v ∉ s)) = [c] := by
  intro l
  induction l with
  | nil => intro _ s c hc; simp at hc
  | cons a as ih =>
    intro hnd s c hc hcs hoth
    simp only [List.nodup_cons] at hnd
    simp only [List.filter_cons]
    rcases List.mem_cons.mp hc with rfl | hcas
    · have p2 : (decide (c ∉ s)) = true := by simpa using hcs
      rw [p2]
      simp only [cond_true, if_true]
      have hnil : as.filter (fun v => decide (v ∉ s)) = [] := by
        rw [List.filter_eq_nil_iff]
        intro v hv
        have hva : v ≠ c := fun h => hnd.1 (h ▸ hv)
        have := hoth v (List.mem_cons_of_mem c hv) hva
        simpa using this
      rw [hnil]
    · have hac : a ≠ c := fun h => hnd.1 (h ▸ hcas)
      have has : a ∈ s := hoth a (List.mem_cons_self a as) hac
      have p1 : (decide (a ∉ s)) = false := by simpa using has
      rw [p1, if_neg Bool.false_ne_true]
      exact ih hnd.2 s c hcas hcs
        (fun v hv hvc => hoth v (List.mem_cons_of_mem a hv) hvc)

theorem countP_split {α : Type} (p p2 : α → Bool) :
    ∀ l : List α, (∀ x ∈ l, p2 x = true → p x = true) →
      l.countP p = l.countP p2 + l.countP (fun x => p x && !(p2 x)) := by
  intro l
  induction l with
  | nil => intro _; simp
  | cons a as ih =>
    intro himp
    simp only [List.countP_cons]
    rw [ih (fun x hx => himp x (List.mem_cons_of_mem a hx))]
    by_cases h2 : p2 a = true
    · have h1 : p a = true := himp a (List.mem_cons_self a as) h2
      rw [h1, h2]
      have e1 : (true && !true) = false := rfl
      rw [e1, if_pos rfl, if_neg Bool.false_ne_true]
      omega
    · have h2f : p2 a = false := by
        cases hv : p2 a
        · rfl
        · exact absurd hv h2
      rw [h2f]
      by_cases h1 : p a = true
      · rw [h1]
        have e2 : (true && !false) = true := rfl
        rw [e2, if_pos rfl, if_neg Bool.false_ne_true]
        omega
      · have h1f : p a = false := by
          cases hv : p a
          · rfl
          · exact absurd hv h1
        rw [h1f]
        have e3 : (false && !false) = false := rfl
        rw [e3, if_neg Bool.false_ne_true]
        omega

theorem length_eq_of_mem_iff {α : Type} [DecidableEq α] (l1 l2 : List α)
    (h1 : l1.Nodup) (h2 : l2.Nodup) (h : ∀ x, x ∈ l1 ↔ x ∈ l2) :
    l1.length = l2.length := by
  refine (List.perm_of_nodup_nodup_toFinset_eq h1 h2 ?_).length_eq
  ext x
  simp only [List.mem_toFinset]
  exact h x

theorem getElem?_singleton {α : Type} (c u : α) (m : Nat)
    (h : ([c] : List α)[m]? = some u) : m = 0 ∧ u = c := by
  cases m with
  | zero => simp at h; exact ⟨rfl, h.symm⟩
  | succ m2 => simp at h

/-- The main invariant lemma for the `topoSort` loop. `ieOf u` is the importee
set of `u`, `F v` the importer set of `v`. The invariants: the processed and
queued units are distinct and from the list; every unit's count is the number
of its importees not yet sorted; a unit has been enqueued (sorted or queued)
iff all its importees are sorted; sorted units' importees appear earlier in
`sorted`; the fuel dominates the queue length plus the units never enqueued.
The loop then completes, and the result is importee-closed, ordered, and
contains exactly the units all of whose importees it contains. -/
theorem kahnAux_spec (units : List SUnit) (hund : units.Nodup)
    (ieOf : SUnit → List SUnit) (hie_nd : ∀ u ∈ units, (ieOf u).Nodup)
    (F : SUnit → List SUnit)
    (hF : ∀ v u, u ∈ F v ↔ (u ∈ units ∧ v ∈ ieOf u))
    (hFnd : ∀ v, (F v).Nodup) :
    ∀ (fuel : Nat) (q : List SUnit) (counts : List (SUnit × Int)) (sorted : List SUnit),
      (sorted ++ q).Nodup →
      (∀ u ∈ sorted ++ q, u ∈ units) →
      (∀ u ∈ units, mapGet counts u =
        some (((ieOf u).filter (fun v => decide (v ∉ sorted))).length : Int)) →
      (∀ u ∈ units, (u ∈ sorted ∨ u ∈ q) ↔ (∀ v ∈ ieOf u, v ∈ sorted)) →
      (∀ (k : Nat) (u : SUnit), sorted[k]? = some u →
        ∀ v ∈ ieOf u, ∃ j < k, sorted[j]? = some v) →
      q.length + (units.filter (fun u => decide (u ∉ sorted ∧ u ∉ q))).length ≤ fuel →
      ∃ final, kahnAux F fuel q counts sorted = some final ∧
        final.Nodup ∧ (∀ u ∈ final, u ∈ units) ∧
        (∀ u ∈ units, (u ∈ final ↔ ∀ v ∈ ieOf u, v ∈ final)) ∧
        (∀ (k : Nat) (u : SUnit), final[k]? = some u →
          ∀ v ∈ ieOf u, ∃ j < k, final[j]? = some v) := by
  intro fuel
  induction fuel with
  | zero =>
    intro q counts sorted I1 I2 _ I4 I6 If
    have hq : q = [] := List.length_eq_zero.mp (by omega)
    subst hq
    rw [kahnAux_nil]
    refine ⟨sorted, rfl, by simpa using I1, fun u hu => I2 u (by simpa using hu), ?_, I6⟩
    intro u hu
    constructor
    · intro hus
      exact (I4 u hu).mp (Or.inl hus)
    · intro hvs
      rcases (I4 u hu).mpr hvs with h | h
      · exact h
      · simp at h
  | succ fuel ih =>
    intro q counts sorted I1 I2 I3 I4 I6 If
    cases q with
    | nil =>
      rw [kahnAux_nil]
      refine ⟨sorted, rfl, by simpa using I1, fun u hu => I2 u (by simpa using hu), ?_, I6⟩
      intro u hu
      constructor
      · intro hus
        exact (I4 u hu).mp (Or.inl hus)
      · intro hvs
        rcases (I4 u hu).mpr hvs with h | h
        · exact h
        · simp at h
    | cons cur rest =>
      have hcurQ : cur ∈ sorted ++ cur :: rest := by simp
      have hcurU : cur ∈ units := I2 cur hcurQ
      have hcurNS : cur ∉ sorted := by
        intro hc
        have hd := (List.nodup_append.mp I1).2.2
        exact hd hc (by simp)
      have hcurz : ∀ v ∈ ieOf cur, v ∈ sorted :=
        (I4 cur hcurU).mp (Or.inr (by simp))
      have hpre : ∀ imp ∈ F cur, ∃ n : Int, mapGet counts imp = some n ∧ 1 ≤ n := by
        intro imp himp
        obtain ⟨himpU, hcurIe⟩ := (hF cur imp).mp himp
        refine ⟨_, I3 imp himpU, ?_⟩
        have hm : cur ∈ (ieOf imp).filter (fun v => decide (v ∉ sorted)) :=
          List.mem_filter.mpr ⟨hcurIe, by simpa using hcurNS⟩
        have hlen : 0 < ((ieOf imp).filter (fun v => decide (v ∉ sorted))).length :=
          List.length_pos.mpr (List.ne_nil_of_mem hm)
        exact_mod_cast hlen
      obtain ⟨q2, counts2, hstep, hcounts2, hq2⟩ :=
        processImporters_spec (F cur) rest counts hpre (hFnd cur)
      have hNEfacts : ∀ u ∈ (F cur).filter
          (fun u => decide (mapGet counts u = some 1)),
          u ∈ units ∧ cur ∈ ieOf u ∧ (∀ v ∈ ieOf u, v ≠ cur → v ∈ sorted) ∧
            u ∉ sorted ∧ u ∉ cur :: rest := by
        intro u hu
        obtain ⟨huF, hcnt⟩ := List.mem_filter.mp hu
        obtain ⟨huU, hcur⟩ := (hF cur u).mp huF
        simp only [decide_eq_true_eq] at hcnt
        rw [I3 u huU] at hcnt
        injection hcnt with hcnt
        have hlen1 : ((ieOf u).filter (fun v => decide (v ∉ sorted))).length = 1 := by
          exact_mod_cast hcnt
        have hcf : cur ∈ (ieOf u).filter (fun v => decide (v ∉ sorted)) :=
          List.mem_filter.mpr ⟨hcur, by simpa using hcurNS⟩
        obtain ⟨a, ha⟩ := List.length_eq_one.mp hlen1
        have hac : a = cur := by
          rw [ha] at hcf
          exact (List.mem_singleton.mp hcf).symm
        rw [hac] at ha
        have hoth : ∀ v ∈ ieOf u, v ≠ cur → v ∈ sorted := by
          intro v hv hvc
          by_contra hvs
          have hvf : v ∈ (ieOf u).filter (fun v => decide (v ∉ sorted)) :=
            List.mem_filter.mpr ⟨hv, by simpa using hvs⟩
          rw [ha] at hvf
          exact hvc (List.mem_singleton.mp hvf)
        have hnq : u ∉ sorted ∧ u ∉ cur :: rest := by
          by_contra hcx
          push_neg at hcx
          have hmem : u ∈ sorted ∨ u ∈ cur :: rest := by
            by_cases h : u ∈ sorted
            · exact Or.inl h
            · exact Or.inr (hcx h)
          have := (I4 u huU).mp hmem cur hcur
          exact hcurNS this
        exact ⟨huU, hcur, hoth, hnq.1, hnq.2⟩
      have hNEnd : ((F cur).filter
          (fun u => decide (mapGet counts u = some 1))).Nodup :=
        (hFnd cur).filter _
      -- invariants for the recursive call
      have hI1 : ((sorted ++ [cur]) ++ q2).Nodup := by
        rw [hq2]
        have hre : (sorted ++ [cur]) ++ (rest ++ (F cur).filter
            (fun u => decide (mapGet counts u = some 1))) =
            (sorted ++ cur :: rest) ++ (F cur).filter
              (fun u => decide (mapGet counts u = some 1)) := by
          simp
        rw [hre, List.nodup_append]
        refine ⟨I1, hNEnd, ?_⟩
        intro x hx hx2
        obtain ⟨_, _, _, hxs, hxq⟩ := hNEfacts x hx2
        rcases List.mem_append.mp hx with h | h
        · exact hxs h
        · exact hxq h
      have hI2 : ∀ u ∈ (sorted ++ [cur]) ++ q2, u ∈ units := by
        intro u hu
        rcases List.mem_append.mp hu with h | h
        · rcases List.mem_append.mp h with h2 | h2
          · exact I2 u (List.mem_append.mpr (Or.inl h2))
          · rw [List.mem_singleton.mp h2]
            exact hcurU
        · rw [hq2] at h
          rcases List.mem_append.mp h with h2 | h2
          · exact I2 u (List.mem_append.mpr (Or.inr (List.mem_cons_of_mem cur h2)))
          · exact (hNEfacts u h2).1
      have hI3 : ∀ u ∈ units, mapGet counts2 u =
          some (((ieOf u).filter
            (fun v => decide (v ∉ sorted ++ [cur]))).length : Int) := by
        intro u hu
        rw [hcounts2 u]
        by_cases hmF : u ∈ F cur
        · rw [if_pos hmF, I3 u hu, Option.map_some']
          obtain ⟨_, hcur⟩ := (hF cur u).mp hmF
          have hrel := filter_out_length (ieOf u) (hie_nd u hu) sorted cur hcur hcurNS
          have : (((ieOf u).filter (fun v => decide (v ∉ sorted))).length : Int) - 1 =
              (((ieOf u).filter (fun v => decide (v ∉ sorted ++ [cur]))).length : Int) := by
            omega
          rw [this]
        · rw [if_neg hmF, I3 u hu]
          have hcur : cur ∉ ieOf u := by
            intro hc
            exact hmF ((hF cur u).mpr ⟨hu, hc⟩)
          rw [filter_out_of_notin (ieOf u) sorted cur hcur]
      have hI4 : ∀ u ∈ units,
          (u ∈ sorted ++ [cur] ∨ u ∈ q2) ↔ ∀ v ∈ ieOf u, v ∈ sorted ++ [cur] := by
        intro u hu
        constructor
        · intro hmem v hv
          rcases hmem with h | h
          · rcases List.mem_append.mp h with h2 | h2
            · exact List.mem_append.mpr
                (Or.inl ((I4 u hu).mp (Or.inl h2) v hv))
            · rw [List.mem_singleton.mp h2] at hv
              exact List.mem_append.mpr (Or.inl (hcurz v hv))
          · rw [hq2] at h
            rcases List.mem_append.mp h with h2 | h2
            · exact List.mem_append.mpr
                (Or.inl ((I4 u hu).mp (Or.inr (List.mem_cons_of_mem cur h2)) v hv))
            · obtain ⟨_, _, hoth, _, _⟩ := hNEfacts u h2
              by_cases hvc : v = cur
              · rw [hvc]
                exact List.mem_append.mpr (Or.inr (by simp))
              · exact List.mem_append.mpr (Or.inl (hoth v hv hvc))
        · intro hall
          by_cases hin : ∀ v ∈ ieOf u, v ∈ sorted
          · rcases (I4 u hu).mpr hin with h | h
            · exact Or.inl (List.mem_append.mpr (Or.inl h))
            · rcases List.mem_cons.mp h with rfl | h2
              · exact Or.inl (List.mem_append.mpr (Or.inr (by simp)))
              · refine Or.inr ?_
                rw [hq2]
                exact List.mem_append.mpr (Or.inl h2)
          · push_neg at hin
            obtain ⟨v0, hv0, hv0ns⟩ := hin
            have hv0c : v0 = cur := by
              rcases List.mem_append.mp (hall v0 hv0) with h | h
              · exact absurd h hv0ns
              · exact List.mem_singleton.mp h
            subst hv0c
            have hsing : (ieOf u).filter (fun v => decide (v ∉ sorted)) = [v0] := by
              refine filter_eq_singleton_of (ieOf u) (hie_nd u hu) sorted v0 hv0
                hv0ns ?_
              intro v hv hvc
              rcases List.mem_append.mp (hall v hv) with h | h
              · exact h
              · exact absurd (List.mem_singleton.mp h) hvc
            refine Or.inr ?_
            rw [hq2]
            refine List.mem_append.mpr (Or.inr ?_)
            refine List.mem_filter.mpr ⟨(hF v0 u).mpr ⟨hu, hv0⟩, ?_⟩
            rw [I3 u hu, hsing]
            simp
      have hI6 : ∀ (k : Nat) (u : SUnit), (sorted ++ [cur])[k]? = some u →
          ∀ v ∈ ieOf u, ∃ j < k, (sorted ++ [cur])[j]? = some v := by
        intro k u hk v hv
        by_cases hks : k < sorted.length
        · rw [List.getElem?_append, if_pos hks] at hk
          obtain ⟨j, hj, hjv⟩ := I6 k u hk v hv
          refine ⟨j, hj, ?_⟩
          rw [List.getElem?_append, if_pos (by omega)]
          exact hjv
        · rw [List.getElem?_append, if_neg hks] at hk
          obtain ⟨hk0, rfl⟩ := getElem?_singleton cur u (k - sorted.length) hk
          have hkl : k = sorted.length := by omega
          have hvs : v ∈ sorted := hcurz v hv
          obtain ⟨j, hjl, hjv⟩ := List.getElem_of_mem hvs
          refine ⟨j, by omega, ?_⟩
          rw [List.getElem?_append, if_pos hjl]
          simp [List.getElem?_eq_getElem, hjl, hjv]
      have hIf : q2.length + (units.filter
          (fun u => decide (u ∉ sorted ++ [cur] ∧ u ∉ q2))).length ≤ fuel := by
        have hsplit := countP_split
          (fun u => decide (u ∉ sorted ∧ u ∉ cur :: rest))
          (fun u => decide (u ∉ sorted ++ [cur] ∧ u ∉ q2)) units ?_
        · have hdiff : units.countP (fun u =>
              decide (u ∉ sorted ∧ u ∉ cur :: rest) &&
                !(decide (u ∉ sorted ++ [cur] ∧ u ∉ q2))) =
              ((F cur).filter (fun u => decide (mapGet counts u = some 1))).length := by
            rw [List.countP_eq_length_filter]
            refine length_eq_of_mem_iff _ _ (hund.filter _) hNEnd ?_
            intro x
            simp only [List.mem_filter, Bool.and_eq_true, Bool.not_eq_true',
              decide_eq_true_eq, decide_eq_false_iff_not]
            constructor
            · rintro ⟨hxu, ⟨hxs, hxq⟩, hnp⟩
              have hx2 : x ∈ sorted ++ [cur] ∨ x ∈ q2 := by
                by_contra hc
                push_neg at hc
                exact hnp ⟨hc.1, hc.2⟩
              rcases hx2 with h | h
              · rcases List.mem_append.mp h with h2 | h2
                · exact absurd h2 hxs
                · exact absurd (by simp [List.mem_singleton.mp h2]) hxq
              · rw [hq2] at h
                rcases List.mem_append.mp h with h2 | h2
                · exact absurd (List.mem_cons_of_mem cur h2) hxq
                · obtain ⟨ha, hb⟩ := List.mem_filter.mp h2
                  exact ⟨ha, by simpa using hb⟩
            · intro hx
              have hxf : x ∈ List.filter (fun u => decide (mapGet counts u = some 1))
                  (F cur) := List.mem_filter.mpr ⟨hx.1, by simpa using hx.2⟩
              obtain ⟨hxU, hcx, _, hxs, hxq⟩ := hNEfacts x hxf
              refine ⟨hxU, ⟨hxs, hxq⟩, ?_⟩
              intro hc
              apply hc.2
              rw [hq2]
              exact List.mem_append.mpr (Or.inr hxf)
          rw [List.countP_eq_length_filter, List.countP_eq_length_filter] at hsplit
          have hql : q2.length = rest.length + ((F cur).filter
              (fun u => decide (mapGet counts u = some 1))).length := by
            rw [hq2, List.length_append]
          simp only [List.length_cons] at If
          omega
        · intro x _ hx
          simp only [decide_eq_true_eq] at hx ⊢
          refine ⟨fun hc => hx.1 (List.mem_append.mpr (Or.inl hc)), ?_⟩
          intro hc
          rcases List.mem_cons.mp hc with rfl | h2
          · exact hx.1 (List.mem_append.mpr (Or.inr (by simp)))
          · apply hx.2
            rw [hq2]
            exact List.mem_append.mpr (Or.inl h2)
      obtain ⟨final, hfin, hc1, hc2, hc3, hc4⟩ :=
        ih q2 counts2 (sorted ++ [cur]) hI1 hI2 hI3 hI4 hI6 hIf
      refine ⟨final, ?_, hc1, hc2, hc3, hc4⟩
      rw [kahnAux_cons, hstep]
      exact hfin

/-- The loop of `topoSort` started from its initial state: it succeeds, and
the result is a duplicate-free sublist of the units that is import-closed
(a unit is kept iff all units it imports are kept) and ordered (every
imported unit precedes its importer). -/
theorem topoSortLoop_spec (units : List SUnit)
    (hpaths : (units.map (fun u => u.absolutePath)).Nodup)
    (hres : ∀ u ∈ units, ∀ p ∈ u.importPaths, ∃ w ∈ units, w.absolutePath = p) :
    ∃ final, topoSortLoop units = some final ∧ final.Nodup ∧
      (∀ u ∈ final, u ∈ units) ∧
      (∀ u ∈ units, (u ∈ final ↔ ∀ v ∈ units, Imports u v → v ∈ final)) ∧
      (∀ (k : Nat) (u : SUnit), final[k]? = some u →
        ∀ v ∈ units, Imports u v → ∃ j < k, final[j]? = some v) := by
  have hund : units.Nodup := hpaths.of_map
  obtain ⟨imps, himps, hkeys, hmem⟩ :=
    importPairs_spec units hpaths hres units (fun u hu => hu)
  have hkeysnd : (imps.map Prod.fst).Nodup := by rw [hkeys]; exact hund
  have hie : ∀ u ∈ units, ∃ l, (u, l) ∈ imps ∧ mapGet imps u = some l := by
    intro u hu
    rw [← hkeys] at hu
    obtain ⟨pr, hpr, hpr1⟩ := List.mem_map.mp hu
    obtain ⟨u1, l⟩ := pr
    have hu1 : u1 = u := hpr1
    subst hu1
    exact ⟨l, hpr, mapGet_of_mem_of_nodupKeys imps u1 l hkeysnd hpr⟩
  have hieP : ∀ u ∈ units, (u, (mapGet imps u).getD []) ∈ imps := by
    intro u hu
    obtain ⟨l, hl, hg⟩ := hie u hu
    rw [hg, Option.getD_some]
    exact hl
  have hiemem : ∀ u ∈ units, ∀ x,
      (x ∈ (mapGet imps u).getD [] ↔ x ∈ units ∧ Imports u x) := by
    intro u hu x
    exact (hmem _ (hieP u hu)).2 x
  have hie_nd : ∀ u ∈ units, ((mapGet imps u).getD []).Nodup := by
    intro u hu
    exact (hmem _ (hieP u hu)).1
  have hF : ∀ v u, u ∈ importersOf imps v ↔
      (u ∈ units ∧ v ∈ (mapGet imps u).getD []) := by
    intro v u
    rw [importersOf_mem]
    constructor
    · rintro ⟨l, hl, hvl⟩
      have hu : u ∈ units := by
        rw [← hkeys]
        exact List.mem_map.mpr ⟨(u, l), hl, rfl⟩
      have hg : mapGet imps u = some l := mapGet_of_mem_of_nodupKeys imps u l hkeysnd hl
      rw [hg, Option.getD_some]
      exact ⟨hu, hvl⟩
    · rintro ⟨hu, hv⟩
      exact ⟨(mapGet imps u).getD [], hieP u hu, hv⟩
  have hFnd : ∀ v, (importersOf imps v).Nodup := importersOf_nodup imps hkeysnd
  have hloop : topoSortLoop units = kahnAux (importersOf imps) units.length
      (units.filter (fun u => decide
        (mapGet (imps.map (fun p => (p.1, (p.2.length : Int)))) u = some 0)))
      (imps.map (fun p => (p.1, (p.2.length : Int)))) [] := by
    simp only [topoSortLoop, himps]
  have hcg : ∀ u ∈ units,
      mapGet (imps.map (fun p => (p.1, (p.2.length : Int)))) u =
        some ((((mapGet imps u).getD []).length : Int)) := by
    intro u hu
    obtain ⟨l, hl, hg⟩ := hie u hu
    have hck : (imps.map (fun p => (p.1, (p.2.length : Int)))).map Prod.fst = units := by
      rw [List.map_map, ← hkeys]
      rfl
    have hm0 : (u, (l.length : Int)) ∈ imps.map (fun p => (p.1, (p.2.length : Int))) :=
      List.mem_map.mpr ⟨(u, l), hl, rfl⟩
    rw [mapGet_of_mem_of_nodupKeys _ u (l.length : Int) (by rw [hck]; exact hund) hm0,
      hg, Option.getD_some]
  set C := imps.map (fun p => (p.1, (p.2.length : Int))) with hC
  set Q := units.filter (fun u => decide (mapGet C u = some 0)) with hQ
  have I1 : (([] : List SUnit) ++ Q).Nodup := by
    rw [List.nil_append, hQ]
    exact hund.filter _
  have I2 : ∀ u ∈ ([] : List SUnit) ++ Q, u ∈ units := by
    intro u hu
    rw [List.nil_append, hQ] at hu
    exact (List.mem_filter.mp hu).1
  have I3 : ∀ u ∈ units, mapGet C u =
      some ((((mapGet imps u).getD []).filter
        (fun v => decide (v ∉ ([] : List SUnit)))).length : Int) := by
    intro u hu
    have hfe : ((mapGet imps u).getD []).filter
        (fun v => decide (v ∉ ([] : List SUnit))) = (mapGet imps u).getD [] :=
      List.filter_eq_self.mpr (fun a _ => by simp)
    rw [hfe]
    exact hcg u hu
  have I4 : ∀ u ∈ units, (u ∈ ([] : List SUnit) ∨ u ∈ Q) ↔
      (∀ v ∈ (mapGet imps u).getD [], v ∈ ([] : List SUnit)) := by
    intro u hu
    constructor
    · intro h
      rcases h with h | h
      · simp at h
      · rw [hQ] at h
        have h0 : mapGet C u = some 0 := by simpa using (List.mem_filter.mp h).2
        rw [hcg u hu] at h0
        have hl0 : (((mapGet imps u).getD []).length : Int) = 0 := Option.some.inj h0
        have hl0n : ((mapGet imps u).getD []).length = 0 := by exact_mod_cast hl0
        have hnil : (mapGet imps u).getD [] = [] := List.length_eq_zero.mp hl0n
        intro v hv
        rw [hnil] at hv
        simp at hv
    · intro h
      right
      rw [hQ]
      refine List.mem_filter.mpr ⟨hu, ?_⟩
      have hnil : (mapGet imps u).getD [] = [] := by
        cases he : (mapGet imps u).getD [] with
        | nil => rfl
        | cons a l =>
          have := h a (by rw [he]; exact List.mem_cons_self a l)
          simp at this
      rw [decide_eq_true_eq, hcg u hu, hnil]
      simp
  have I6 : ∀ (k : Nat) (u : SUnit), (([] : List SUnit))[k]? = some u →
      ∀ v ∈ (mapGet imps u).getD [], ∃ j < k, (([] : List SUnit))[j]? = some v := by
    intro k u h
    simp at h
  have If : Q.length + (units.filter
      (fun u => decide (u ∉ ([] : List SUnit) ∧ u ∉ Q))).length ≤ units.length := by
    have hfc : units.filter (fun u => decide (u ∉ ([] : List SUnit) ∧ u ∉ Q)) =
        units.filter (fun u => !(decide (mapGet C u = some 0))) := by
      apply List.filter_congr
      intro x hx
      by_cases hx0 : mapGet C x = some 0
      · have hxq : x ∈ Q := by
          rw [hQ]
          exact List.mem_filter.mpr ⟨hx, by simpa using hx0⟩
        simp [hxq, hx0]
      · have hxq : x ∉ Q := by
          intro hc
          rw [hQ] at hc
          exact hx0 (by simpa using (List.mem_filter.mp hc).2)
        simp [hxq, hx0]
    rw [hfc, hQ]
    have hlen : units.length =
        (units.filter (fun u => decide (mapGet C u = some 0))).length +
          (units.filter (fun u => !(decide (mapGet C u = some 0)))).length :=
      List.length_eq_length_filter_add _
    omega
  obtain ⟨final, hfin, hndF, hsubF, hcloF, hordF⟩ :=
    kahnAux_spec units hund (fun u => (mapGet imps u).getD []) hie_nd
      (importersOf imps) hF hFnd units.length Q C [] I1 I2 I3 I4 I6 If
  refine ⟨final, ?_, hndF, hsubF, ?_, ?_⟩
  · rw [hloop]
    exact hfin
  · intro u hu
    rw [hcloF u hu]
    constructor
    · intro h v hv himp
      exact h v (((hiemem u hu) v).mpr ⟨hv, himp⟩)
    · intro h v hv
      obtain ⟨hvu, himp⟩ := ((hiemem u hu) v).mp hv
      exact h v hvu himp
  · intro k u hk v hv himp
    have hu : u ∈ units := hsubF u (List.getElem?_mem hk)
    exact hordF k u hk v (((hiemem u hu) v).mpr ⟨hv, himp⟩)

/-- Claim C3: under the host-compiler guarantees that unit paths are distinct
and every import path resolves to a listed unit, `topoSort` is correct: (a)
whenever it returns a list, that list is a permutation of the input in which
every unit appears after every unit it imports; (b) when the import graph is
acyclic it returns such a list; and (c) when the import graph has a cycle the
loop still terminates but its result misses units, so the final
`assert(sorted.length === units.length)` fires and `topoSort` fails rather
than returning a list. -/
theorem topoSort_correct (units : List SUnit)
    (hpaths : (units.map (fun u => u.absolutePath)).Nodup)
    (hres : ∀ u ∈ units, ∀ p ∈ u.importPaths, ∃ w ∈ units, w.absolutePath = p) :
    (∀ sorted, topoSort units = some sorted →
      sorted.Perm units ∧
      ∀ (i : Nat) (u v : SUnit), sorted[i]? = some u → v ∈ units → Imports u v →
        ∃ j < i, sorted[j]? = some v) ∧
    (AcyclicImports units → ∃ sorted, topoSort units = some sorted) ∧
    (¬ AcyclicImports units →
      topoSort units = none ∧
      ∃ run, topoSortLoop units = some run ∧ run.length ≠ units.length) := by
  have hund : units.Nodup := hpaths.of_map
  obtain ⟨final, hfin, hndF, hsubF, hcloF, hordF⟩ := topoSortLoop_spec units hpaths hres
  have hsp : List.Subperm final units := hndF.subperm (fun a ha => hsubF a ha)
  refine ⟨?_, ?_, ?_⟩
  · intro sorted hs
    simp only [topoSort, hfin] at hs
    by_cases hlen : final.length = units.length
    · rw [if_pos hlen] at hs
      have hfs : final = sorted := Option.some.inj hs
      subst hfs
      refine ⟨hsp.perm_of_length_le (by omega), ?_⟩
      intro i u v hi hv himp
      exact hordF i u hi v hv himp
    · rw [if_neg hlen] at hs
      exact absurd hs (by simp)
  · intro hac
    have hall : ∀ u ∈ units, u ∈ final := by
      by_contra hc
      push_neg at hc
      obtain ⟨u0, hu0, hu0f⟩ := hc
      have hSne : units.filter (fun u => decide (u ∉ final)) ≠ [] := by
        intro he
        have hm : u0 ∈ units.filter (fun u => decide (u ∉ final)) :=
          List.mem_filter.mpr ⟨hu0, by simpa using hu0f⟩
        rw [he] at hm
        simp at hm
      have hsucc : ∀ u ∈ units.filter (fun u => decide (u ∉ final)),
          ∃ v ∈ units.filter (fun u => decide (u ∉ final)),
            (fun a b => b ∈ units ∧ Imports a b) u v := by
        intro u hu
        obtain ⟨huu, hunf⟩ := List.mem_filter.mp hu
        have hunf2 : u ∉ final := by simpa using hunf
        have hnc : ¬ (∀ v ∈ units, Imports u v → v ∈ final) := by
          intro hcl
          exact hunf2 ((hcloF u huu).mpr hcl)
        push_neg at hnc
        obtain ⟨v, hvu, hvimp, hvnf⟩ := hnc
        exact ⟨v, List.mem_filter.mpr ⟨hvu, by simpa using hvnf⟩, hvu, hvimp⟩
      obtain ⟨z, hz, hzcyc⟩ := exists_cycle (units.filter (fun u => decide (u ∉ final)))
        (fun a b => b ∈ units ∧ Imports a b) hSne hsucc
      exact hac ⟨z, (List.mem_filter.mp hz).1, hzcyc⟩
    have hlen : final.length = units.length := by
      have h1 : List.Subperm units final := hund.subperm (fun a ha => hall a ha)
      have h2 := hsp.length_le
      have h3 := h1.length_le
      omega
    refine ⟨final, ?_⟩
    simp only [topoSort, hfin]
    rw [if_pos hlen]
  · intro hcyc
    have hlen : final.length ≠ units.length := by
      intro hlen
      apply hcyc
      intro hex
      obtain ⟨z, hzu, hzc⟩ := hex
      have hperm : final.Perm units := hsp.perm_of_length_le (by omega)
      have hzf : z ∈ final := hperm.mem_iff.mpr hzu
      obtain ⟨i, hi, hieq⟩ := List.getElem_of_mem hzf
      have hiq : final[i]? = some z := by simp [List.getElem?_eq_getElem, hi, hieq]
      have hdesc : ∀ (b : SUnit),
          Relation.TransGen (fun a b => b ∈ units ∧ Imports a b) z b →
          ∀ (k : Nat), final[k]? = some z → ∃ j < k, final[j]? = some b := by
        intro b hab
        induction hab with
        | single h =>
          intro k hk
          exact hordF k _ hk _ h.1 h.2
        | tail hab2 h ih =>
          intro k hk
          obtain ⟨j, hj, hjb⟩ := ih k hk
          obtain ⟨j2, hj2, hj2c⟩ := hordF j _ hjb _ h.1 h.2
          exact ⟨j2, by omega, hj2c⟩
      obtain ⟨j, hj, hjz⟩ := hdesc z hzc i hiq
      have hjlt : j < final.length := by
        by_contra hge
        rw [List.getElem?_eq_none (by omega)] at hjz
        simp at hjz
      have hji : j = i := List.getElem?_inj hjlt hndF (by rw [hjz, hiq])
      omega
    refine ⟨?_, final, hfin, hlen⟩
    simp only [topoSort, hfin]
    rw [if_neg hlen]

/-- A concrete run of `topoSort_correct`: for the acyclic two-unit input where
`b.sol` imports `a.sol`, `topoSort` returns `[a.sol, b.sol]`, a permutation of
the input. -/
theorem topoSort_correct_witness :
    List.Perm [SUnit.mk "a.sol" [], SUnit.mk "b.sol" ["a.sol"]]
      [SUnit.mk "b.sol" ["a.sol"], SUnit.mk "a.sol" []] :=
  ((topoSort_correct [SUnit.mk "b.sol" ["a.sol"], SUnit.mk "a.sol" []]
      (by decide) (by decide)).1
    [SUnit.mk "a.sol" [], SUnit.mk "b.sol" ["a.sol"]] (by decide)).1

end Scribble
